import Mathlib

/-!
Verification of the entity-reconciliation core of the BCProductMigration
repository.  The JavaScript sources are shallowly embedded: pure helpers
become Lean functions, stateful API interaction becomes explicit state
passing over small destination-state models, fallible calls return
`Except`, and the memoized recursive category-path walk is given an
explicit fuel parameter as the termination device (the fuel only limits
recursion depth; theorems always supply enough of it, and divergence of
the source recursion shows up as the fuel-indexed family being `none` for
every fuel).

JavaScript `Map` objects are embedded as association lists with
insert-or-overwrite semantics (`jsSet`), matching insertion-order
iteration and "later entry wins" lookup of `new Map(pairs)`.
-/

namespace BCMig

/-! ## JavaScript `Map` / `Set` model -/

abbrev JsMap (α β : Type) := List (α × β)

def jsSet {α β : Type} [DecidableEq α] : JsMap α β → α → β → JsMap α β
  | [], k, v => [(k, v)]
  | (k', v') :: t, k, v =>
    if k' = k then (k, v) :: t else (k', v') :: jsSet t k v

def jsGet {α β : Type} [DecidableEq α] (m : JsMap α β) (k : α) : Option β :=
  (m.find? (fun p => p.1 = k)).map (·.2)

def jsOfList {α β : Type} [DecidableEq α] (l : List (α × β)) : JsMap α β :=
  l.foldl (fun m p => jsSet m p.1 p.2) []

def jsHas {α β : Type} [DecidableEq α] (m : JsMap α β) (k : α) : Bool :=
  (jsGet m k).isSome

/-- Model of a JavaScript `Set` of strings: kept as a list, `add` appends
when absent. -/
def setAdd (s : List String) (x : String) : List String :=
  if x ∈ s then s else s ++ [x]

/-! ## String model

The source normalizes strings with NFKD decomposition, stripping of the
combining-mark range U+0300..U+036F, replacement of whitespace runs by a
single space, trimming and lowercasing (src/utils/string.js).  Unicode
NFKD and `\s` are modelled on a representative character domain:
`nfkdChar` is a finite decomposition table (identity outside it),
`isJsWs` covers the ASCII whitespace characters plus the common Unicode
spaces matched by `\s`, and `jsToLower` is the restriction of
`toLowerCase` to ASCII letters (the only cased characters the model's
pipeline can produce).
-/

def lowerTable : List (Char × Char) :=
  [ ('A', 'a'), ('B', 'b'), ('C', 'c'), ('D', 'd'), ('E', 'e'), ('F', 'f'),
    ('G', 'g'), ('H', 'h'), ('I', 'i'), ('J', 'j'), ('K', 'k'), ('L', 'l'),
    ('M', 'm'), ('N', 'n'), ('O', 'o'), ('P', 'p'), ('Q', 'q'), ('R', 'r'),
    ('S', 's'), ('T', 't'), ('U', 'u'), ('V', 'v'), ('W', 'w'), ('X', 'x'),
    ('Y', 'y'), ('Z', 'z') ]

def jsToLower (c : Char) : Char :=
  match lowerTable.find? (fun p => p.1 = c) with
  | some p => p.2
  | none => c

/-- Code points matched by the whitespace class of the regex engine:
ASCII whitespace plus the common Unicode space characters. -/
def wsCodes : List Nat :=
  [32, 9, 10, 13, 11, 12, 0xA0, 0x1680,
   0x2000, 0x2001, 0x2002, 0x2003, 0x2004, 0x2005, 0x2006, 0x2007,
   0x2008, 0x2009, 0x200A, 0x2028, 0x2029, 0x202F, 0x205F, 0x3000, 0xFEFF]

def isJsWs (c : Char) : Bool :=
  c.toNat ∈ wsCodes

/-- Combining diacritical marks, the range U+0300..U+036F stripped by
`normalize` after decomposition. -/
def isMark (c : Char) : Bool :=
  0x300 ≤ c.toNat ∧ c.toNat ≤ 0x36F

/-- Finite model of Unicode NFKD decomposition: precomposed Latin letters
decompose into an ASCII base letter followed by a combining mark;
every character outside the table is its own decomposition. -/
def nfkdTable : List (Char × List Char) :=
  [ ('À', ['A', '̀']), ('Á', ['A', '́']),
    ('Â', ['A', '̂']), ('Ä', ['A', '̈']),
    ('à', ['a', '̀']), ('á', ['a', '́']),
    ('â', ['a', '̂']), ('ä', ['a', '̈']),
    ('É', ['E', '́']), ('È', ['E', '̀']),
    ('é', ['e', '́']), ('è', ['e', '̀']),
    ('Ü', ['U', '̈']), ('ü', ['u', '̈']),
    ('Ñ', ['N', '̃']), ('ñ', ['n', '̃']),
    ('Ç', ['C', '̧']), ('ç', ['c', '̧']),
    ('Ö', ['O', '̈']), ('ö', ['o', '̈']) ]

def nfkdChar (c : Char) : List Char :=
  match nfkdTable.find? (fun p => p.1 = c) with
  | some p => p.2
  | none => [c]

/-- Replacement of a whitespace run by a single space, modelling the
global regex replace into one space.  The boolean argument records
whether the previous character was whitespace. -/
def collapseWsAux : Bool → List Char → List Char
  | _, [] => []
  | prevWs, c :: cs =>
    if isJsWs c then
      if prevWs then collapseWsAux true cs else ' ' :: collapseWsAux true cs
    else c :: collapseWsAux false cs

def collapseWs (l : List Char) : List Char :=
  collapseWsAux false l

/-- Model of `String.prototype.trim`. -/
def trimChars (l : List Char) : List Char :=
  ((l.dropWhile (isJsWs ·)).reverse.dropWhile (isJsWs ·)).reverse

def trimString (s : String) : String :=
  String.mk (trimChars s.data)

/-- Shallow embedding of `normalize` (src/utils/string.js): NFKD
decomposition, strip combining marks, collapse whitespace runs, trim,
lowercase. -/
def normalize (s : String) : String :=
  String.mk
    ((trimChars
        (collapseWs ((s.data.flatMap nfkdChar).filter (fun c => ¬ isMark c)))).map
      jsToLower)

/-- Shallow embedding of `namesEqual` (src/utils/string.js):
case-insensitive comparison of trimmed names. -/
def namesEqual (a b : String) : Bool :=
  (trimChars a.data).map jsToLower = (trimChars b.data).map jsToLower

def hasInfixAux (sub : List Char) : List Char → Bool
  | [] => sub.isEmpty
  | c :: cs => sub.isPrefixOf (c :: cs) || hasInfixAux sub cs

/-- Substring containment, modelling `String.prototype.includes`. -/
def containsSub (s sub : String) : Bool :=
  hasInfixAux sub.data s.data

example : normalize "  Héllo   Wörld " = "hello world" := by decide
example : normalize " COLOR " = "color" := by decide
example : namesEqual "  Shirt " "shirt" = true := by decide
example : containsSub "abcdef" "cde" = true := by decide
example : containsSub "abcdef" "cdf" = false := by decide

/-! ## Idempotence of `normalize` (claim C6)

Strategy: characterize the characters a `normalize` output can contain
(no decomposable characters, no combining marks, only `' '` as
whitespace, lowercase-stable) together with the shape facts that
whitespace is never doubled and never at either end; each pipeline stage
is then the identity on such a string.
-/

/-- Character list of the `normalize` pipeline before `String.mk`. -/
def normChars (l : List Char) : List Char :=
  (trimChars
      (collapseWs ((l.flatMap nfkdChar).filter (fun c => ¬ isMark c)))).map
    jsToLower

lemma normalize_eq_normChars (s : String) :
    normalize s = String.mk (normChars s.data) := rfl

lemma nfkd_keys_nonascii : ∀ p ∈ nfkdTable, 0x7F < p.1.toNat := by decide

lemma nfkd_vals_ascii_or_mark :
    ∀ p ∈ nfkdTable, ∀ v ∈ p.2, isMark v = true ∨ v.toNat < 0x80 := by decide

lemma lower_keys_range : ∀ p ∈ lowerTable, 65 ≤ p.1.toNat ∧ p.1.toNat ≤ 90 := by
  decide

lemma lower_vals_range : ∀ p ∈ lowerTable, 97 ≤ p.2.toNat ∧ p.2.toNat ≤ 122 := by
  decide

lemma wsCodes_not_letter : ∀ n ∈ wsCodes, ¬ (65 ≤ n ∧ n ≤ 122) := by decide

lemma isJsWs_false_of_letter {c : Char} (h1 : 65 ≤ c.toNat) (h2 : c.toNat ≤ 122) :
    isJsWs c = false := by
  simp only [isJsWs, decide_eq_false_iff_not]
  intro hmem
  exact wsCodes_not_letter _ hmem ⟨h1, h2⟩

lemma isMark_false_of_ascii {c : Char} (h : c.toNat < 0x80) : isMark c = false := by
  simp only [isMark, decide_eq_false_iff_not, not_and, not_le]
  omega

lemma nfkdChar_self {c : Char}
    (h : nfkdTable.find? (fun p => p.1 = c) = none) : nfkdChar c = [c] := by
  simp [nfkdChar, h]

lemma nfkdChar_self_of_ascii {c : Char} (h : c.toNat < 0x80) : nfkdChar c = [c] := by
  apply nfkdChar_self
  rw [List.find?_eq_none]
  intro p hp
  simp only [decide_eq_true_eq]
  intro hpc
  have := nfkd_keys_nonascii p hp
  rw [hpc] at this
  omega

lemma jsToLower_eq_self {c : Char} (h : ∀ p ∈ lowerTable, p.1 ≠ c) :
    jsToLower c = c := by
  have hf : lowerTable.find? (fun p => p.1 = c) = none := by
    rw [List.find?_eq_none]
    intro p hp
    simp only [decide_eq_true_eq]
    exact h p hp
  simp [jsToLower, hf]

lemma jsToLower_eq_self_of_not_upper {c : Char}
    (h : ¬ (65 ≤ c.toNat ∧ c.toNat ≤ 90)) : jsToLower c = c := by
  apply jsToLower_eq_self
  intro p hp hpc
  have := lower_keys_range p hp
  rw [hpc] at this
  exact h this

lemma jsToLower_cases (c : Char) :
    jsToLower c = c ∨ ∃ p ∈ lowerTable, p.1 = c ∧ jsToLower c = p.2 := by
  cases hf : lowerTable.find? (fun p => p.1 = c) with
  | none => exact Or.inl (by simp [jsToLower, hf])
  | some p =>
    refine Or.inr ⟨p, List.mem_of_find?_eq_some hf, ?_, by simp [jsToLower, hf]⟩
    have := List.find?_some hf
    simpa using this

lemma jsToLower_ws_eq (c : Char) : isJsWs (jsToLower c) = isJsWs c := by
  rcases jsToLower_cases c with h | ⟨p, hp, hpc, hv⟩
  · rw [h]
  · rw [hv]
    have hk := lower_keys_range p hp
    have hvr := lower_vals_range p hp
    rw [isJsWs_false_of_letter (show 65 ≤ p.2.toNat by omega) hvr.2]
    rw [← hpc, isJsWs_false_of_letter hk.1 (by omega)]

/-- Characters that every pipeline stage leaves alone. -/
def StableChar (c : Char) : Prop :=
  nfkdChar c = [c] ∧ isMark c = false ∧ jsToLower c = c ∧
    (isJsWs c = true → c = ' ')

lemma stableChar_of_range {c : Char} (h1 : 91 ≤ c.toNat) (h2 : c.toNat ≤ 122) :
    StableChar c := by
  refine ⟨nfkdChar_self_of_ascii (by omega), isMark_false_of_ascii (by omega),
    jsToLower_eq_self_of_not_upper (by omega), ?_⟩
  rw [isJsWs_false_of_letter (by omega) h2]
  intro hc
  cases hc

lemma stableChar_space : StableChar ' ' := by
  refine ⟨by decide, by decide, by decide, fun _ => rfl⟩

/-! Membership through the pipeline stages. -/

lemma mem_collapseWsAux {c : Char} :
    ∀ (b : Bool) (l : List Char), c ∈ collapseWsAux b l →
      c = ' ' ∨ (c ∈ l ∧ isJsWs c = false) := by
  intro b l
  induction l generalizing b with
  | nil => intro h; cases h
  | cons d ds ih =>
    intro h
    rw [collapseWsAux] at h
    cases hd : isJsWs d with
    | true =>
      rw [hd] at h
      simp only [if_true] at h
      cases b with
      | true =>
        rcases ih true h with h' | ⟨hm, hw⟩
        · exact Or.inl h'
        · exact Or.inr ⟨List.mem_cons_of_mem _ hm, hw⟩
      | false =>
        rcases List.mem_cons.mp h with h' | h'
        · exact Or.inl h'
        · rcases ih true h' with h'' | ⟨hm, hw⟩
          · exact Or.inl h''
          · exact Or.inr ⟨List.mem_cons_of_mem _ hm, hw⟩
    | false =>
      rw [hd] at h
      simp only [Bool.false_eq_true, if_false] at h
      rcases List.mem_cons.mp h with h' | h'
      · exact Or.inr ⟨h' ▸ List.mem_cons_self _ _, h' ▸ hd⟩
      · rcases ih false h' with h'' | ⟨hm, hw⟩
        · exact Or.inl h''
        · exact Or.inr ⟨List.mem_cons_of_mem _ hm, hw⟩

lemma mem_dropWhile {p : Char → Bool} {c : Char} :
    ∀ {l : List Char}, c ∈ l.dropWhile p → c ∈ l := by
  intro l
  induction l with
  | nil => intro h; cases h
  | cons d ds ih =>
    intro h
    rw [List.dropWhile_cons] at h
    by_cases hd : p d = true
    · rw [if_pos hd] at h
      exact List.mem_cons_of_mem _ (ih h)
    · rw [if_neg hd] at h
      exact h

lemma mem_trimChars {c : Char} {l : List Char} (h : c ∈ trimChars l) : c ∈ l := by
  unfold trimChars at h
  rw [List.mem_reverse] at h
  have h1 := mem_dropWhile h
  rw [List.mem_reverse] at h1
  exact mem_dropWhile h1

/-- Every character of a `normalize` output is stable under all stages. -/
lemma normChars_stable {l : List Char} :
    ∀ c ∈ normChars l, StableChar c := by
  intro c hc
  unfold normChars at hc
  rcases List.mem_map.mp hc with ⟨d, hd, rfl⟩
  have hd1 := mem_trimChars hd
  rcases mem_collapseWsAux false _ hd1 with hsp | ⟨hdz, hdw⟩
  · subst hsp
    have : jsToLower ' ' = ' ' := by decide
    rw [this]
    exact stableChar_space
  · rcases List.mem_filter.mp hdz with ⟨hdfm, hdm⟩
    have hdmark : isMark d = false := by
      simpa using hdm
    rcases List.mem_flatMap.mp hdfm with ⟨e, _, hde⟩
    have hd_nfkd : nfkdChar d = [d] := by
      revert hde
      unfold nfkdChar
      cases hf : nfkdTable.find? (fun p => p.1 = e) with
      | none =>
        intro hde
        rcases List.mem_singleton.mp hde with rfl
        exact nfkdChar_self hf
      | some p =>
        intro hde
        rcases nfkd_vals_ascii_or_mark p (List.mem_of_find?_eq_some hf) d hde with
          hm | ha
        · rw [hm] at hdmark; cases hdmark
        · exact nfkdChar_self_of_ascii ha
    rcases jsToLower_cases d with hid | ⟨p, hp, hpc, hv⟩
    · rw [hid]
      refine ⟨hd_nfkd, hdmark, hid, ?_⟩
      intro hw
      rw [hdw] at hw
      cases hw
    · rw [hv]
      have hvr := lower_vals_range p hp
      exact stableChar_of_range (by omega) hvr.2

/-! Shape facts: whitespace in a `normalize` output is single spaces,
never doubled, never at either end. -/

/-- No two adjacent whitespace characters. -/
def RWS (a b : Char) : Prop := ¬ (isJsWs a = true ∧ isJsWs b = true)

lemma RWS_flip : ∀ a b, RWS a b → RWS b a := by
  intro a b h hab
  exact h ⟨hab.2, hab.1⟩

lemma collapseAux_props (l : List Char) :
    (collapseWsAux false l).Chain' RWS ∧ (collapseWsAux true l).Chain' RWS ∧
      (∀ c, (collapseWsAux true l).head? = some c → isJsWs c = false) := by
  induction l with
  | nil => exact ⟨List.chain'_nil, List.chain'_nil, fun c h => by cases h⟩
  | cons c cs ih =>
    obtain ⟨ihf, iht, ihh⟩ := ih
    cases hc : isJsWs c with
    | false =>
      have hchain : (c :: collapseWsAux false cs).Chain' RWS := by
        rw [List.chain'_cons']
        refine ⟨fun y _ hand => ?_, ihf⟩
        rw [hc] at hand
        cases hand.1
      refine ⟨?_, ?_, ?_⟩
      · rw [collapseWsAux, hc]
        simpa using hchain
      · rw [collapseWsAux, hc]
        simpa using hchain
      · intro d hd
        rw [collapseWsAux, hc] at hd
        simp only [Bool.false_eq_true, if_false, List.head?_cons,
          Option.some.injEq] at hd
        rw [← hd]
        exact hc
    | true =>
      have hchain : (' ' :: collapseWsAux true cs).Chain' RWS := by
        rw [List.chain'_cons']
        refine ⟨fun y hy hand => ?_, iht⟩
        have := ihh y hy
        rw [this] at hand
        cases hand.2
      refine ⟨?_, ?_, ?_⟩
      · rw [collapseWsAux, hc]
        simpa using hchain
      · rw [collapseWsAux, hc]
        simpa using iht
      · intro d hd
        rw [collapseWsAux, hc] at hd
        simp only [if_true] at hd
        exact ihh d hd

lemma dropWhile_isSuffix (p : Char → Bool) :
    ∀ l : List Char, l.dropWhile p <:+ l := by
  intro l
  induction l with
  | nil => exact List.suffix_refl _
  | cons c cs ih =>
    rw [List.dropWhile_cons]
    by_cases hc : p c = true
    · rw [if_pos hc]
      exact ih.trans (List.suffix_cons c cs)
    · rw [if_neg hc]

lemma chain'_of_suffix {R : Char → Char → Prop} {l₁ l₂ : List Char}
    (h : l₁ <:+ l₂) (hc : l₂.Chain' R) : l₁.Chain' R := by
  rcases h with ⟨pre, rfl⟩
  exact hc.right_of_append

lemma chain'_trimChars {l : List Char} (h : l.Chain' RWS) :
    (trimChars l).Chain' RWS := by
  unfold trimChars
  rw [List.chain'_reverse]
  refine List.Chain'.imp (fun a b hab => RWS_flip a b hab) ?_
  refine chain'_of_suffix (dropWhile_isSuffix _ _) ?_
  rw [List.chain'_reverse]
  refine List.Chain'.imp (fun a b hab => RWS_flip a b hab) ?_
  exact chain'_of_suffix (dropWhile_isSuffix _ _) h

lemma head?_dropWhile_not {p : Char → Bool} :
    ∀ {l : List Char} {c : Char}, (l.dropWhile p).head? = some c → p c = false := by
  intro l
  induction l with
  | nil => intro c h; cases h
  | cons d ds ih =>
    intro c h
    rw [List.dropWhile_cons] at h
    by_cases hd : p d = true
    · rw [if_pos hd] at h
      exact ih h
    · rw [if_neg hd] at h
      rw [List.head?_cons, Option.some.injEq] at h
      rw [← h]
      exact Bool.eq_false_iff.mpr hd

lemma getLast?_of_suffix {l₁ l₂ : List Char} (h : l₁ <:+ l₂) (hne : l₁ ≠ []) :
    l₂.getLast? = l₁.getLast? := by
  rcases h with ⟨pre, rfl⟩
  rw [List.getLast?_append]
  cases hg : l₁.getLast? with
  | none =>
    rcases List.getLast?_eq_none_iff.mp hg with rfl
    exact absurd rfl hne
  | some c => rfl

lemma trimChars_last_not_ws {l : List Char} {c : Char}
    (h : (trimChars l).getLast? = some c) : isJsWs c = false := by
  unfold trimChars at h
  rw [List.getLast?_reverse] at h
  exact head?_dropWhile_not h

lemma trimChars_head_not_ws {l : List Char} {c : Char}
    (h : (trimChars l).head? = some c) : isJsWs c = false := by
  unfold trimChars at h
  rw [List.head?_reverse] at h
  by_cases hne : (((l.dropWhile (isJsWs ·)).reverse).dropWhile (isJsWs ·)) = []
  · rw [hne] at h
    cases h
  · rw [← getLast?_of_suffix (dropWhile_isSuffix (isJsWs ·) _) hne,
      List.getLast?_reverse] at h
    exact head?_dropWhile_not h

/-! Fixed-point lemmas for each stage. -/

lemma flatMap_eq_self {l : List Char} (h : ∀ c ∈ l, nfkdChar c = [c]) :
    l.flatMap nfkdChar = l := by
  induction l with
  | nil => rfl
  | cons c cs ih =>
    rw [List.flatMap_cons, h c (List.mem_cons_self _ _),
      ih (fun d hd => h d (List.mem_cons_of_mem _ hd))]
    rfl

lemma collapseWs_eq_self {l : List Char}
    (h1 : ∀ c ∈ l, isJsWs c = true → c = ' ')
    (h2 : l.Chain' RWS) : collapseWs l = l := by
  induction l with
  | nil => rfl
  | cons c cs ih =>
    have hcs : collapseWs cs = cs :=
      ih (fun d hd => h1 d (List.mem_cons_of_mem _ hd)) (List.chain'_cons'.mp h2).2
    cases hc : isJsWs c with
    | false =>
      show collapseWsAux false (c :: cs) = c :: cs
      rw [collapseWsAux, hc]
      simpa using hcs
    | true =>
      have hsp : c = ' ' := h1 c (List.mem_cons_self _ _) hc
      show collapseWsAux false (c :: cs) = c :: cs
      rw [collapseWsAux, hc]
      simp only [if_true]
      cases cs with
      | nil => rw [hsp]; rfl
      | cons d ds =>
        have hdnw : isJsWs d = false := by
          have hrel := (List.chain'_cons'.mp h2).1 d (by rfl)
          cases hdd : isJsWs d with
          | false => rfl
          | true => exact absurd ⟨hc, hdd⟩ hrel
        rw [collapseWsAux, hdnw]
        simp only [Bool.false_eq_true, if_false]
        have : collapseWsAux false (d :: ds) = d :: ds := hcs
        rw [collapseWsAux, hdnw] at this
        simp only [Bool.false_eq_true, if_false] at this
        rw [hsp]
        exact congrArg (' ' :: ·) this

lemma dropWhile_eq_self_of_head {p : Char → Bool} {l : List Char}
    (h : ∀ c, l.head? = some c → p c = false) : l.dropWhile p = l := by
  cases l with
  | nil => rfl
  | cons c cs =>
    rw [List.dropWhile_cons, h c rfl]
    simp

lemma trimChars_eq_self {l : List Char}
    (hh : ∀ c, l.head? = some c → isJsWs c = false)
    (hl : ∀ c, l.getLast? = some c → isJsWs c = false) : trimChars l = l := by
  unfold trimChars
  rw [dropWhile_eq_self_of_head hh]
  rw [dropWhile_eq_self_of_head (fun c hc => hl c (by rwa [List.head?_reverse] at hc))]
  exact List.reverse_reverse l

lemma map_jsToLower_eq_self {l : List Char} (h : ∀ c ∈ l, jsToLower c = c) :
    l.map jsToLower = l := by
  rw [List.map_congr_left h]
  exact List.map_id l

/-- Idempotence at the character-list level. -/
lemma normChars_idem (l : List Char) : normChars (normChars l) = normChars l := by
  have hst := @normChars_stable l
  have h1 : (normChars l).flatMap nfkdChar = normChars l :=
    flatMap_eq_self (fun c hc => (hst c hc).1)
  have h2 : (normChars l).filter (fun c => ¬ isMark c) = normChars l := by
    rw [List.filter_eq_self]
    intro c hc
    simp [(hst c hc).2.1]
  -- chain fact for the output
  have hchain : (normChars l).Chain' RWS := by
    unfold normChars
    rw [List.chain'_map]
    refine List.Chain'.imp ?_ (chain'_trimChars (collapseAux_props _).1)
    intro a b hab hand
    rw [jsToLower_ws_eq] at hand
    rw [jsToLower_ws_eq] at hand
    exact hab hand
  have h3 : collapseWs (normChars l) = normChars l :=
    collapseWs_eq_self (fun c hc => (hst c hc).2.2.2) hchain
  have hhead : ∀ c, (normChars l).head? = some c → isJsWs c = false := by
    intro c hc
    unfold normChars at hc
    rw [List.head?_map] at hc
    cases hh : (trimChars
        (collapseWs ((l.flatMap nfkdChar).filter (fun c => ¬ isMark c)))).head? with
    | none => rw [hh] at hc; cases hc
    | some d =>
      rw [hh] at hc
      simp only [Option.map_some', Option.some.injEq] at hc
      rw [← hc, jsToLower_ws_eq]
      exact trimChars_head_not_ws hh
  have hlast : ∀ c, (normChars l).getLast? = some c → isJsWs c = false := by
    intro c hc
    unfold normChars at hc
    rw [List.getLast?_map] at hc
    cases hh : (trimChars
        (collapseWs ((l.flatMap nfkdChar).filter (fun c => ¬ isMark c)))).getLast? with
    | none => rw [hh] at hc; cases hc
    | some d =>
      rw [hh] at hc
      simp only [Option.map_some', Option.some.injEq] at hc
      rw [← hc, jsToLower_ws_eq]
      exact trimChars_last_not_ws hh
  have h4 : trimChars (normChars l) = normChars l := trimChars_eq_self hhead hlast
  have h5 : (normChars l).map jsToLower = normChars l :=
    map_jsToLower_eq_self (fun c hc => (hst c hc).2.2.1)
  show (trimChars (collapseWs (((normChars l).flatMap nfkdChar).filter
      (fun c => ¬ isMark c)))).map jsToLower = normChars l
  rw [h1, h2, h3, h4, h5]

/-- C6: normalization is idempotent and deterministic: for every input
string `s`, `normalize (normalize s) = normalize s`, and `normalize` is a
pure function of its input (equal inputs yield equal outputs). -/
theorem normalize_idem_deterministic :
    (∀ s : String, normalize (normalize s) = normalize s) ∧
    (∀ s t : String, s = t → normalize s = normalize t) := by
  constructor
  · intro s
    rw [normalize_eq_normChars, normalize_eq_normChars]
    exact congrArg String.mk (normChars_idem s.data)
  · intro s t h
    rw [h]

/-- Witness for C6 at concrete inputs. -/
theorem normalize_idem_deterministic_witness :
    normalize (normalize "  Héllo   Wörld ") = normalize "  Héllo   Wörld " ∧
      normalize "Shirt" = normalize "Shirt" :=
  ⟨normalize_idem_deterministic.1 _,
    normalize_idem_deterministic.2 "Shirt" "Shirt" rfl⟩

/-! ## Category path map (src/models/category.js, claims C4 and C5)

`buildCategoryPathMap` walks parent links recursively with a shared
memo-cache.  The embedding threads the cache explicitly and uses a fuel
parameter for the recursion; the top-level map construction supplies
`length + 1` fuel per entry, enough for every acyclic input (the
uncached recursion depth is bounded by the number of distinct ids).
`pathForU` is the cache-free reference recursion used in proofs.
-/

structure Cat where
  id : Nat
  parent_id : Option Nat
  name : String
deriving DecidableEq, Repr

def mkById (cats : List Cat) : JsMap Nat Cat :=
  jsOfList (cats.map (fun c => (c.id, c)))

/-- Shallow embedding of the inner `pathFor` of `buildCategoryPathMap`:
memo-cache first, then root test (`parent_id` absent or 0), then parent
lookup; an unresolvable parent contributes the empty parent path. -/
def pathFor (byId : JsMap Nat Cat) :
    Nat → JsMap Nat String → Cat → Option String × JsMap Nat String
  | 0, cache, _ => (none, cache)
  | fuel + 1, cache, cat =>
    match jsGet cache cat.id with
    | some p => (some p, cache)
    | none =>
      let name := trimString cat.name
      match cat.parent_id with
      | none =>
        let p := "/" ++ name
        (some p, jsSet cache cat.id p)
      | some pid =>
        if pid = 0 then
          let p := "/" ++ name
          (some p, jsSet cache cat.id p)
        else
          match jsGet byId pid with
          | some parent =>
            match pathFor byId fuel cache parent with
            | (some pp, cache') =>
              let p := pp ++ "/" ++ name
              (some p, jsSet cache' cat.id p)
            | (none, cache') => (none, cache')
          | none =>
            let p := "" ++ "/" ++ name
            (some p, jsSet cache cat.id p)

/-- Cache-free reference recursion for `pathFor`; it computes the same
values (see `pathFor_agrees`). -/
def pathForU (byId : JsMap Nat Cat) : Nat → Cat → Option String
  | 0, _ => none
  | fuel + 1, cat =>
    let name := trimString cat.name
    match cat.parent_id with
    | none => some ("/" ++ name)
    | some pid =>
      if pid = 0 then some ("/" ++ name)
      else
        match jsGet byId pid with
        | some parent =>
          match pathForU byId fuel parent with
          | some pp => some (pp ++ "/" ++ name)
          | none => none
        | none => some ("" ++ "/" ++ name)

def buildStep (byId : JsMap Nat Cat) (fuel : Nat)
    (acc : Option (JsMap Nat String × List (Nat × String))) (c : Cat) :
    Option (JsMap Nat String × List (Nat × String)) :=
  match acc with
  | none => none
  | some (cache, out) =>
    match pathFor byId fuel cache c with
    | (some p, cache') => some (cache', out ++ [(c.id, p)])
    | (none, _) => none

/-- Construction of the `idToPath` map over all categories, threading the
shared cache; `none` models divergence of the source recursion. -/
def buildIdToPath (cats : List Cat) : Option (JsMap Nat String) :=
  (cats.foldl (buildStep (mkById cats) (cats.length + 1)) (some ([], []))).map
    (fun x => jsOfList x.2)

/-- Shallow embedding of `buildCategoryPathMap` (src/models/category.js):
returns the `byId` index and the `idToPath` map. -/
def buildCategoryPathMap (cats : List Cat) :
    JsMap Nat Cat × Option (JsMap Nat String) :=
  (mkById cats, buildIdToPath cats)

/-! ### Claim C4: self-referential parents make the walk diverge -/

/-- Category whose `parent_id` refers to itself. -/
def selfCat : Cat := ⟨1, some 1, "A"⟩

/-- C4 (code bug evidence): on a category list containing a
self-referential parent link, the memoized parent walk of
`buildCategoryPathMap` never terminates: the fuel-indexed embedding of
`pathFor` returns `none` (fuel exhausted) for every fuel bound whenever
the category is not already cached, and the whole map construction
diverges (`none`).  The spec requires the walk to terminate treating a
self-referential parent as root. -/
theorem pathFor_self_parent_diverges :
    (∀ (fuel : Nat) (cache : JsMap Nat String), jsGet cache selfCat.id = none →
      (pathFor (mkById [selfCat]) fuel cache selfCat).1 = none) ∧
    (buildCategoryPathMap [selfCat]).2 = none := by
  have hmain : ∀ (fuel : Nat) (cache : JsMap Nat String),
      jsGet cache selfCat.id = none →
      (pathFor (mkById [selfCat]) fuel cache selfCat).1 = none := by
    intro fuel
    induction fuel with
    | zero => intro cache _; rfl
    | succ n ih =>
      intro cache h
      have h1 : jsGet cache 1 = none := h
      have hby : jsGet (mkById [selfCat]) 1 = some selfCat := by decide
      rw [pathFor]
      simp only [show selfCat.id = 1 from rfl,
        show selfCat.parent_id = some 1 from rfl, hby]
      rw [if_neg (by decide : ¬ (1 : Nat) = 0)]
      rw [h1]
      cases hrec : pathFor (mkById [selfCat]) n cache selfCat with
      | mk r cache' =>
        have hr := ih cache h
        rw [hrec] at hr
        simp only at hr
        subst hr
        rfl
  refine ⟨hmain, ?_⟩
  have h2 := hmain 2 [] rfl
  cases hrec : pathFor (mkById [selfCat]) 2 [] selfCat with
  | mk r cache' =>
    rw [hrec] at h2
    simp only at h2
    subst h2
    simp [buildCategoryPathMap, buildIdToPath, buildStep, List.foldl, hrec]

/-- Witness for C4 at concrete inputs (fuel 5, empty cache). -/
theorem pathFor_self_parent_diverges_witness :
    (pathFor (mkById [selfCat]) 5 [] selfCat).1 = none ∧
      (buildCategoryPathMap [selfCat]).2 = none :=
  ⟨pathFor_self_parent_diverges.1 5 [] rfl, pathFor_self_parent_diverges.2⟩

/-! ### Association-list map lemmas -/

lemma jsGet_cons {α β : Type} [DecidableEq α] (a : α) (b : β) (t : JsMap α β)
    (i : α) : jsGet ((a, b) :: t) i = if a = i then some b else jsGet t i := by
  unfold jsGet
  by_cases h : a = i
  · rw [List.find?_cons_of_pos _ (by simpa using h), if_pos h]
    rfl
  · rw [List.find?_cons_of_neg _ (by simpa using h), if_neg h]

lemma jsGet_nil {α β : Type} [DecidableEq α] (i : α) :
    jsGet ([] : JsMap α β) i = none := rfl

lemma jsGet_jsSet {α β : Type} [DecidableEq α] (m : JsMap α β) (k : α) (v : β)
    (i : α) : jsGet (jsSet m k v) i = if i = k then some v else jsGet m i := by
  induction m with
  | nil =>
    show jsGet [(k, v)] i = _
    rw [jsGet_cons]
    by_cases hki : k = i
    · rw [if_pos hki, if_pos hki.symm]
    · rw [if_neg hki, if_neg (fun h => hki h.symm)]
  | cons e es ih =>
    obtain ⟨k', v'⟩ := e
    show jsGet (if k' = k then (k, v) :: es else (k', v') :: jsSet es k v) i = _
    by_cases hk : k' = k
    · rw [if_pos hk, jsGet_cons, jsGet_cons]
      by_cases hki : k = i
      · rw [if_pos hki, if_pos hki.symm]
      · rw [if_neg hki, if_neg (fun h => hki h.symm), if_neg (hk ▸ hki)]
    · rw [if_neg hk, jsGet_cons, jsGet_cons]
      by_cases hki : k' = i
      · rw [if_pos hki, if_pos hki, if_neg (fun h => hk (hki.trans h))]
      · rw [if_neg hki, if_neg hki, ih]

lemma mem_jsSet_cases {α β : Type} [DecidableEq α] {m : JsMap α β} {k : α}
    {v : β} {e : α × β} (h : e ∈ jsSet m k v) : e = (k, v) ∨ e ∈ m := by
  induction m with
  | nil =>
    rcases List.mem_singleton.mp h with rfl
    exact Or.inl rfl
  | cons e' es ih =>
    obtain ⟨k', v'⟩ := e'
    rw [jsSet] at h
    by_cases hk : k' = k
    · rw [if_pos hk] at h
      rcases List.mem_cons.mp h with h' | h'
      · exact Or.inl h'
      · exact Or.inr (List.mem_cons_of_mem _ h')
    · rw [if_neg hk] at h
      rcases List.mem_cons.mp h with h' | h'
      · exact Or.inr (h' ▸ List.mem_cons_self _ _)
      · rcases ih h' with h'' | h''
        · exact Or.inl h''
        · exact Or.inr (List.mem_cons_of_mem _ h'')

lemma jsGet_mem {α β : Type} [DecidableEq α] {m : JsMap α β} {k : α} {v : β}
    (h : jsGet m k = some v) : (k, v) ∈ m := by
  unfold jsGet at h
  cases hf : m.find? (fun p => p.1 = k) with
  | none => rw [hf] at h; cases h
  | some e =>
    rw [hf] at h
    simp only [Option.map_some', Option.some.injEq] at h
    have he := List.mem_of_find?_eq_some hf
    have hp := List.find?_some hf
    simp only [decide_eq_true_eq] at hp
    have : e = (k, v) := by
      obtain ⟨e1, e2⟩ := e
      cases hp
      cases h
      rfl
    rw [← this]
    exact he

lemma foldl_jsSet_mem {α β : Type} [DecidableEq α] {P : α × β → Prop} :
    ∀ (l acc : List (α × β)), (∀ e ∈ acc, P e) → (∀ e ∈ l, P e) →
      ∀ e ∈ l.foldl (fun m p => jsSet m p.1 p.2) acc, P e := by
  intro l
  induction l with
  | nil => intro acc hacc _ e he; exact hacc e he
  | cons p ps ih =>
    intro acc hacc hl e he
    rw [List.foldl_cons] at he
    refine ih _ ?_ (fun x hx => hl x (List.mem_cons_of_mem _ hx)) e he
    intro x hx
    rcases mem_jsSet_cases hx with h | h
    · rw [h]
      have : (p.1, p.2) = p := rfl
      rw [this]
      exact hl p (List.mem_cons_self _ _)
    · exact hacc x h

lemma mem_jsOfList {α β : Type} [DecidableEq α] {l : JsMap α β} :
    ∀ e ∈ jsOfList l, e ∈ l :=
  foldl_jsSet_mem l [] (by intro e he; cases he) (fun _ he => he)

lemma jsSet_append_of_not_mem {α β : Type} [DecidableEq α] {m : JsMap α β}
    {k : α} {v : β} (h : ∀ e ∈ m, e.1 ≠ k) : jsSet m k v = m ++ [(k, v)] := by
  induction m with
  | nil => rfl
  | cons e es ih =>
    obtain ⟨k', v'⟩ := e
    rw [jsSet, if_neg (h (k', v') (List.mem_cons_self _ _))]
    rw [ih (fun x hx => h x (List.mem_cons_of_mem _ hx))]
    rfl

lemma jsOfList_eq_self_aux {α β : Type} [DecidableEq α] :
    ∀ (l acc : List (α × β)), (((acc ++ l).map (·.1)).Nodup) →
      l.foldl (fun m p => jsSet m p.1 p.2) acc = acc ++ l := by
  intro l
  induction l with
  | nil => intro acc _; rw [List.foldl_nil, List.append_nil]
  | cons e es ih =>
    intro acc hnd
    rw [List.foldl_cons]
    have hnot : ∀ x ∈ acc, x.1 ≠ e.1 := by
      intro x hx hxe
      have h1 : x.1 ∈ acc.map (·.1) := List.mem_map_of_mem _ hx
      have h2 : e.1 ∈ (e :: es).map (·.1) := List.mem_map_of_mem _ (List.mem_cons_self _ _)
      rw [List.map_append, List.nodup_append] at hnd
      exact hnd.2.2 h1 (hxe ▸ h2)
    rw [show jsSet acc e.1 e.2 = acc ++ [e] from jsSet_append_of_not_mem hnot]
    rw [ih (acc ++ [e]) (by rwa [List.append_assoc, List.singleton_append])]
    rw [List.append_assoc, List.singleton_append]

lemma jsOfList_eq_self {α β : Type} [DecidableEq α] {l : JsMap α β}
    (h : (l.map (·.1)).Nodup) : jsOfList l = l := by
  have := jsOfList_eq_self_aux l [] (by simpa using h)
  simpa [jsOfList] using this

lemma jsGet_eq_some_of_mem_nodup {α β : Type} [DecidableEq α] {l : JsMap α β}
    {k : α} {v : β} (hnd : (l.map (·.1)).Nodup) (hmem : (k, v) ∈ l) :
    jsGet l k = some v := by
  induction l with
  | nil => cases hmem
  | cons e es ih =>
    rcases List.mem_cons.mp hmem with h | h
    · rw [← h]
      simp [jsGet]
    · have hke : e.1 ≠ k := by
        intro hek
        rw [List.map_cons, List.nodup_cons] at hnd
        refine hnd.1 ?_
        rw [hek]
        exact List.mem_map_of_mem _ h
      unfold jsGet
      rw [List.find?_cons_of_neg _ (by simpa using hke)]
      exact ih (List.nodup_cons.mp (by rwa [List.map_cons] at hnd)).2 h

lemma jsGet_eq_none_of_not_mem {α β : Type} [DecidableEq α] {l : JsMap α β}
    {k : α} (h : ∀ v, (k, v) ∉ l) : jsGet l k = none := by
  unfold jsGet
  rw [List.find?_eq_none.mpr]
  · rfl
  · intro x hx
    simp only [decide_eq_true_eq]
    intro hxk
    exact h x.2 (by rw [← hxk]; exact hx)

lemma jsGet_perm {α β : Type} [DecidableEq α] {l₁ l₂ : JsMap α β}
    (hp : l₁.Perm l₂) (hnd : (l₁.map (·.1)).Nodup) (k : α) :
    jsGet l₁ k = jsGet l₂ k := by
  cases hg : jsGet l₁ k with
  | some v =>
    have := jsGet_eq_some_of_mem_nodup ((hp.map (·.1)).nodup hnd)
      (hp.mem_iff.mp (jsGet_mem hg))
    rw [this]
  | none =>
    symm
    apply jsGet_eq_none_of_not_mem
    intro v hv
    have : (k, v) ∈ l₁ := hp.mem_iff.mpr hv
    rw [jsGet_eq_some_of_mem_nodup hnd this] at hg
    cases hg

/-! ### Reference recursion: monotonicity in fuel, determinism -/

lemma pathForU_succ_of_some {byId : JsMap Nat Cat} :
    ∀ {fuel : Nat} {c : Cat} {p : String}, pathForU byId fuel c = some p →
      pathForU byId (fuel + 1) c = some p := by
  intro fuel
  induction fuel with
  | zero =>
    intro c p h
    simp [pathForU] at h
  | succ n ih =>
    intro c p h
    rw [pathForU] at h ⊢
    cases hpar : c.parent_id with
    | none =>
      simp only [hpar] at h ⊢
      exact h
    | some pid =>
      simp only [hpar] at h ⊢
      by_cases hz : pid = 0
      · rw [if_pos hz] at h ⊢
        exact h
      · rw [if_neg hz] at h ⊢
        cases hby : jsGet byId pid with
        | none =>
          rw [hby] at h
          exact h
        | some parent =>
          rw [hby] at h
          dsimp only at h ⊢
          cases hrec : pathForU byId n parent with
          | none =>
            rw [hrec] at h
            simp at h
          | some pp =>
            rw [hrec] at h
            rw [ih hrec]
            exact h

lemma pathForU_le {byId : JsMap Nat Cat} {f g : Nat} (hfg : f ≤ g) :
    ∀ {c : Cat} {p : String}, pathForU byId f c = some p →
      pathForU byId g c = some p := by
  induction g, hfg using Nat.le_induction with
  | base => exact fun h => h
  | succ m _ ih => exact fun h => pathForU_succ_of_some (ih h)

lemma pathForU_det {byId : JsMap Nat Cat} {f g : Nat} {c : Cat} {p q : String}
    (hp : pathForU byId f c = some p) (hq : pathForU byId g c = some q) :
    p = q := by
  have h1 := pathForU_le (le_max_left f g) hp
  have h2 := pathForU_le (le_max_right f g) hq
  rw [h1] at h2
  exact Option.some.inj h2

/-! ### Soundness of the memo-cache -/

/-- Every cache entry holds the uncached path value of the category with
that id. -/
def CacheOK (byId : JsMap Nat Cat) (cache : JsMap Nat String) : Prop :=
  ∀ i q, jsGet cache i = some q → ∀ cat, jsGet byId i = some cat →
    ∃ f, pathForU byId f cat = some q

lemma cacheOK_nil {byId : JsMap Nat Cat} : CacheOK byId [] := by
  intro i q hq
  rw [jsGet_nil] at hq
  cases hq

lemma cacheOK_set {byId : JsMap Nat Cat} {cache : JsMap Nat String}
    (hok : CacheOK byId cache) {cat : Cat} {p : String} {f : Nat}
    (hcat : jsGet byId cat.id = some cat) (hp : pathForU byId f cat = some p) :
    CacheOK byId (jsSet cache cat.id p) := by
  intro i q hq c' hc'
  rw [jsGet_jsSet] at hq
  by_cases hi : i = cat.id
  · rw [if_pos hi] at hq
    have hqp := Option.some.inj hq
    subst hi
    have hcc : c' = cat := by
      rw [hcat] at hc'
      exact (Option.some.inj hc').symm
    subst hcc
    exact ⟨f, hqp ▸ hp⟩
  · rw [if_neg hi] at hq
    exact hok i q hq c' hc'

/-- The memoized walk returns the same value as the cache-free walk and
preserves cache soundness. -/
lemma pathFor_agrees {byId : JsMap Nat Cat}
    (hkey : ∀ i c, jsGet byId i = some c → c.id = i) :
    ∀ {fuel : Nat} {cache : JsMap Nat String} {cat : Cat} {p : String},
      CacheOK byId cache → jsGet byId cat.id = some cat →
      pathForU byId fuel cat = some p →
      ∃ cache', pathFor byId fuel cache cat = (some p, cache') ∧
        CacheOK byId cache' := by
  intro fuel
  induction fuel with
  | zero =>
    intro cache cat p _ _ hp
    simp [pathForU] at hp
  | succ n ih =>
    intro cache cat p hok hcat hp
    have hp0 := hp
    rw [pathFor]
    cases hc : jsGet cache cat.id with
    | some q =>
      obtain ⟨f, hf⟩ := hok _ _ hc cat hcat
      have hqp : q = p := pathForU_det hf hp0
      subst hqp
      exact ⟨cache, rfl, hok⟩
    | none =>
      rw [pathForU] at hp
      cases hpar : cat.parent_id with
      | none =>
        simp only [hpar] at hp ⊢
        obtain hv := Option.some.inj hp
        refine ⟨jsSet cache cat.id ("/" ++ trimString cat.name), ?_,
          hv ▸ cacheOK_set hok hcat hp0⟩
        rw [hv]
      | some pid =>
        simp only [hpar] at hp ⊢
        by_cases hz : pid = 0
        · rw [if_pos hz] at hp ⊢
          obtain hv := Option.some.inj hp
          refine ⟨jsSet cache cat.id ("/" ++ trimString cat.name), ?_,
            hv ▸ cacheOK_set hok hcat hp0⟩
          rw [hv]
        · rw [if_neg hz] at hp ⊢
          cases hby : jsGet byId pid with
          | none =>
            rw [hby] at hp
            dsimp only at hp ⊢
            obtain hv := Option.some.inj hp
            refine ⟨jsSet cache cat.id ("" ++ "/" ++ trimString cat.name), ?_,
              hv ▸ cacheOK_set hok hcat hp0⟩
            rw [hv]
          | some parent =>
            rw [hby] at hp
            dsimp only at hp ⊢
            have hpid : parent.id = pid := hkey pid parent hby
            have hparent : jsGet byId parent.id = some parent := by
              rw [hpid]
              exact hby
            cases hrecU : pathForU byId n parent with
            | none =>
              rw [hrecU] at hp
              simp at hp
            | some pp =>
              rw [hrecU] at hp
              obtain hv := Option.some.inj hp
              obtain ⟨cache₁, heq, hok₁⟩ := ih hok hparent hrecU
              rw [heq]
              dsimp only
              refine ⟨jsSet cache₁ cat.id (pp ++ "/" ++ trimString cat.name), ?_,
                hv ▸ cacheOK_set hok₁ hcat hp0⟩
              rw [hv]

/-! ### Ancestor chains -/

/-- Leaf-first ancestor chain: each category resolves in `byId`, links to
the next as its parent, and the last one is a root. -/
def LinkedUp (byId : JsMap Nat Cat) : List Cat → Prop
  | [] => False
  | [c] => jsGet byId c.id = some c ∧ (c.parent_id = none ∨ c.parent_id = some 0)
  | c :: par :: rest =>
    jsGet byId c.id = some c ∧ c.parent_id = some par.id ∧ par.id ≠ 0 ∧
      LinkedUp byId (par :: rest)

/-- Root-to-leaf slash join of the chain's trimmed names (the chain is
stored leaf-first). -/
def pathOfChainUp : List Cat → String
  | [] => ""
  | c :: rest => pathOfChainUp rest ++ "/" ++ trimString c.name

/-- Slash join of a root-to-leaf list of names, following the spec's
words: the full path is the slash-joined, trimmed names of all ancestors
from root to leaf (with a leading slash). -/
def slashJoinPath (names : List String) : String :=
  names.foldl (fun acc n => acc ++ "/" ++ n) ""

lemma slashJoinPath_append (xs : List String) (x : String) :
    slashJoinPath (xs ++ [x]) = slashJoinPath xs ++ "/" ++ x := by
  unfold slashJoinPath
  rw [List.foldl_append]
  rfl

lemma pathOfChainUp_eq_slashJoin :
    ∀ l : List Cat,
      pathOfChainUp l = slashJoinPath (l.reverse.map (fun c => trimString c.name)) := by
  intro l
  induction l with
  | nil => rfl
  | cons c rest ih =>
    rw [pathOfChainUp, ih, List.reverse_cons, List.map_append]
    rw [List.map_singleton, slashJoinPath_append]

lemma linkedUp_head {byId : JsMap Nat Cat} :
    ∀ {l : List Cat} {c : Cat}, LinkedUp byId (c :: l) →
      jsGet byId c.id = some c := by
  intro l c h
  cases l with
  | nil => exact h.1
  | cons d ds => exact h.1

lemma linkedUp_mem {byId : JsMap Nat Cat} :
    ∀ {l : List Cat}, LinkedUp byId l → ∀ c ∈ l, jsGet byId c.id = some c := by
  intro l
  induction l with
  | nil => intro _ c hc; cases hc
  | cons d ds ih =>
    intro h c hc
    rcases List.mem_cons.mp hc with rfl | hc'
    · exact linkedUp_head h
    · cases ds with
      | nil => cases hc'
      | cons e es => exact ih h.2.2.2 c hc'

/-- Value of the cache-free walk along an explicit ancestor chain. -/
lemma pathForU_linkedUp {byId : JsMap Nat Cat} :
    ∀ (rest : List Cat) (c : Cat), LinkedUp byId (c :: rest) →
      pathForU byId (rest.length + 1) c = some (pathOfChainUp (c :: rest)) := by
  intro rest
  induction rest with
  | nil =>
    intro c h
    obtain ⟨_, hroot⟩ := h
    rw [pathForU]
    rcases hroot with hr | hr
    · simp only [hr]
      rfl
    · simp only [hr]
      rw [if_pos trivial]
      rfl
  | cons par rest' ih =>
    intro c h
    obtain ⟨_, hpar, hnz, htail⟩ := h
    have hparent : jsGet byId par.id = some par := linkedUp_head htail
    rw [pathForU]
    simp only [hpar]
    rw [if_neg hnz, hparent]
    dsimp only
    rw [List.length_cons, ih par htail]
    rfl

/-! ### The full map construction -/

lemma buildSteps_ok {byId : JsMap Nat Cat} {F : Nat}
    (hkey : ∀ i c, jsGet byId i = some c → c.id = i) :
    ∀ (todo : List Cat) (cache : JsMap Nat String) (out : List (Nat × String)),
      CacheOK byId cache →
      (∀ c ∈ todo, jsGet byId c.id = some c) →
      (∀ c ∈ todo, ∃ p, pathForU byId F c = some p) →
      ∃ cache',
        todo.foldl (buildStep byId F) (some (cache, out)) =
          some (cache',
            out ++ todo.map (fun c => (c.id, (pathForU byId F c).getD ""))) ∧
        CacheOK byId cache' := by
  intro todo
  induction todo with
  | nil =>
    intro cache out hok _ _
    exact ⟨cache, by simp, hok⟩
  | cons c cs ih =>
    intro cache out hok hin hterm
    obtain ⟨p, hp⟩ := hterm c (List.mem_cons_self _ _)
    obtain ⟨cache₁, heq, hok₁⟩ :=
      pathFor_agrees hkey hok (hin c (List.mem_cons_self _ _)) hp
    obtain ⟨cache', heq', hok'⟩ :=
      ih cache₁ (out ++ [(c.id, p)]) hok₁
        (fun d hd => hin d (List.mem_cons_of_mem _ hd))
        (fun d hd => hterm d (List.mem_cons_of_mem _ hd))
    refine ⟨cache', ?_, hok'⟩
    rw [List.foldl_cons,
      show buildStep byId F (some (cache, out)) c = some (cache₁, out ++ [(c.id, p)])
        from by rw [buildStep, heq], heq']
    rw [List.map_cons, show (pathForU byId F c).getD "" = p from by rw [hp]; rfl]
    rw [List.append_assoc, List.singleton_append]

lemma jsGet_mkById_mem {cats : List Cat} {i : Nat} {c : Cat}
    (h : jsGet (mkById cats) i = some c) : c.id = i ∧ c ∈ cats := by
  have hmem0 : (i, c) ∈ jsOfList (cats.map (fun c => (c.id, c))) := jsGet_mem h
  have hmem := mem_jsOfList _ hmem0
  rcases List.mem_map.mp hmem with ⟨c', hc', he⟩
  have h1 : c'.id = i := congrArg Prod.fst he
  have h2 : c' = c := congrArg Prod.snd he
  subst h2
  exact ⟨h1, hc'⟩

/-- Auxiliary form of claim C5 for one fixed input order. -/
lemma buildCategoryPathMap_leaf_aux (cats : List Cat) (chain : List Cat)
    (leaf : Cat) (hnodup : (cats.map (fun c => c.id)).Nodup)
    (hterm : ∀ c ∈ cats, ∃ p, pathForU (mkById cats) (cats.length + 1) c = some p)
    (hchain : LinkedUp (mkById cats) (leaf :: chain))
    (hchain_nodup : ((leaf :: chain).map (fun c => c.id)).Nodup) :
    ∃ m, (buildCategoryPathMap cats).2 = some m ∧
      jsGet m leaf.id =
        some (slashJoinPath
          ((leaf :: chain).reverse.map (fun c => trimString c.name))) := by
  have hkey : ∀ i c, jsGet (mkById cats) i = some c → c.id = i :=
    fun _ _ h => (jsGet_mkById_mem h).1
  have hpairnodup : ((cats.map (fun c => (c.id, c))).map (·.1)).Nodup := by
    rw [List.map_map]
    exact hnodup
  have hin : ∀ c ∈ cats, jsGet (mkById cats) c.id = some c := by
    intro c hc
    unfold mkById
    rw [jsOfList_eq_self hpairnodup]
    exact jsGet_eq_some_of_mem_nodup hpairnodup (List.mem_map_of_mem _ hc)
  obtain ⟨cache', heq, _⟩ :=
    buildSteps_ok (F := cats.length + 1) hkey cats [] [] cacheOK_nil hin hterm
  have hleaf_mem : leaf ∈ cats := by
    have := linkedUp_head hchain
    exact (jsGet_mkById_mem this).2
  -- the final map and its lookup
  have hval : pathForU (mkById cats) (cats.length + 1) leaf =
      some (pathOfChainUp (leaf :: chain)) := by
    have hchainlen : (leaf :: chain).length ≤ cats.length := by
      have hsub : ((leaf :: chain).map (fun c => c.id)).toFinset ⊆
          (cats.map (fun c => c.id)).toFinset := by
        intro x hx
        rw [List.mem_toFinset] at hx ⊢
        rcases List.mem_map.mp hx with ⟨c, hc, rfl⟩
        have := linkedUp_mem hchain c hc
        exact List.mem_map_of_mem _ (jsGet_mkById_mem this).2
      have h1 : ((leaf :: chain).map (fun c => c.id)).toFinset.card =
          (leaf :: chain).length := by
        rw [List.toFinset_card_of_nodup hchain_nodup, List.length_map]
      have h2 : (cats.map (fun c => c.id)).toFinset.card ≤ cats.length := by
        calc (cats.map (fun c => c.id)).toFinset.card
            ≤ (cats.map (fun c => c.id)).length := List.toFinset_card_le _
          _ = cats.length := List.length_map _ _
      have := Finset.card_le_card hsub
      omega
    refine pathForU_le ?_ (pathForU_linkedUp chain leaf hchain)
    have : chain.length + 1 = (leaf :: chain).length := rfl
    omega
  refine ⟨jsOfList (cats.map (fun c => (c.id, (pathForU (mkById cats)
      (cats.length + 1) c).getD ""))), ?_, ?_⟩
  · show buildIdToPath cats = _
    unfold buildIdToPath
    rw [heq]
    rfl
  · have houtnodup : ((cats.map (fun c => (c.id, (pathForU (mkById cats)
        (cats.length + 1) c).getD ""))).map (·.1)).Nodup := by
      rw [List.map_map]
      exact hnodup
    rw [jsOfList_eq_self houtnodup]
    have hmem : (leaf.id, pathOfChainUp (leaf :: chain)) ∈
        cats.map (fun c => (c.id, (pathForU (mkById cats)
          (cats.length + 1) c).getD "")) := by
      have : (pathForU (mkById cats) (cats.length + 1) leaf).getD "" =
          pathOfChainUp (leaf :: chain) := by
        rw [hval]
        rfl
      rw [← this]
      exact List.mem_map_of_mem _ hleaf_mem
    rw [jsGet_eq_some_of_mem_nodup houtnodup hmem]
    rw [pathOfChainUp_eq_slashJoin]

/-! ### Order-independence: the walk only sees the id index -/

lemma pathForU_congr {b1 b2 : JsMap Nat Cat}
    (h : ∀ i, jsGet b1 i = jsGet b2 i) :
    ∀ (fuel : Nat) (c : Cat), pathForU b1 fuel c = pathForU b2 fuel c := by
  intro fuel
  induction fuel with
  | zero => intro c; rfl
  | succ n ih =>
    intro c
    rw [pathForU, pathForU]
    cases hpar : c.parent_id with
    | none => rfl
    | some pid =>
      dsimp only
      by_cases hz : pid = 0
      · rw [if_pos hz, if_pos hz]
      · rw [if_neg hz, if_neg hz, h pid]
        cases jsGet b2 pid with
        | none => rfl
        | some parent =>
          dsimp only
          rw [ih parent]

lemma linkedUp_congr {b1 b2 : JsMap Nat Cat}
    (h : ∀ i, jsGet b1 i = jsGet b2 i) :
    ∀ l, LinkedUp b1 l → LinkedUp b2 l := by
  intro l
  induction l with
  | nil => exact fun h' => h'.elim
  | cons c rest ih =>
    intro hl
    cases rest with
    | nil => exact ⟨by rw [← h c.id]; exact hl.1, hl.2⟩
    | cons par rest' =>
      exact ⟨by rw [← h c.id]; exact hl.1, hl.2.1, hl.2.2.1, ih hl.2.2.2⟩

lemma mkById_get_perm {cats cats' : List Cat} (hperm : cats'.Perm cats)
    (hnodup : (cats.map (fun c => c.id)).Nodup) :
    ∀ i, jsGet (mkById cats') i = jsGet (mkById cats) i := by
  intro i
  have hnodup' : (cats'.map (fun c => c.id)).Nodup :=
    (hperm.map _).nodup_iff.mpr hnodup
  have hp1 : ((cats'.map (fun c => (c.id, c))).map (·.1)).Nodup := by
    rw [List.map_map]
    exact hnodup'
  have hp2 : ((cats.map (fun c => (c.id, c))).map (·.1)).Nodup := by
    rw [List.map_map]
    exact hnodup
  show jsGet (jsOfList (cats'.map (fun c => (c.id, c)))) i =
    jsGet (jsOfList (cats.map (fun c => (c.id, c)))) i
  rw [jsOfList_eq_self hp1, jsOfList_eq_self hp2]
  exact jsGet_perm (hperm.map _) hp1 i

/-- C5: for every acyclic category list with distinct ids (acyclicity
expressed as termination of every parent walk within standard fuel),
the full path `buildCategoryPathMap` computes for a leaf with an
explicit ancestor chain of depth ≥ 3 equals the slash-joined, trimmed
names of all its ancestors from root to leaf; and the same holds for
every permutation of the input list (children may precede parents). -/
theorem buildCategoryPathMap_leaf_path (cats chain : List Cat) (leaf : Cat)
    (hnodup : (cats.map (fun c => c.id)).Nodup)
    (hterm : ∀ c ∈ cats, ∃ p, pathForU (mkById cats) (cats.length + 1) c = some p)
    (hchain : LinkedUp (mkById cats) (leaf :: chain))
    (hchain_nodup : ((leaf :: chain).map (fun c => c.id)).Nodup)
    (hdepth : 3 ≤ (leaf :: chain).length) :
    (∃ m, (buildCategoryPathMap cats).2 = some m ∧
      jsGet m leaf.id = some (slashJoinPath
        ((leaf :: chain).reverse.map (fun c => trimString c.name)))) ∧
    (∀ cats', cats'.Perm cats →
      ∃ m', (buildCategoryPathMap cats').2 = some m' ∧
        jsGet m' leaf.id = some (slashJoinPath
          ((leaf :: chain).reverse.map (fun c => trimString c.name)))) := by
  refine ⟨buildCategoryPathMap_leaf_aux cats chain leaf hnodup hterm hchain
    hchain_nodup, ?_⟩
  intro cats' hperm
  have hco := mkById_get_perm hperm hnodup
  apply buildCategoryPathMap_leaf_aux cats' chain leaf
  · exact (hperm.map _).nodup_iff.mpr hnodup
  · intro c hc
    obtain ⟨p, hp⟩ := hterm c (hperm.mem_iff.mp hc)
    refine ⟨p, ?_⟩
    rw [pathForU_congr hco, hperm.length_eq]
    exact hp
  · exact linkedUp_congr (fun i => (hco i).symm) _ hchain
  · exact hchain_nodup

def catHome : Cat := ⟨1, none, "Home"⟩

def catKitchen : Cat := ⟨2, some 1, "Kitchen"⟩

def catPots : Cat := ⟨3, some 2, " Pots "⟩

/-- Witness for C5: a depth-3 chain listed children-first. -/
theorem buildCategoryPathMap_leaf_path_witness :
    (∃ m, (buildCategoryPathMap [catPots, catHome, catKitchen]).2 = some m ∧
      jsGet m catPots.id = some (slashJoinPath
        (([catPots, catKitchen, catHome] : List Cat).reverse.map
          (fun c => trimString c.name)))) ∧
    (∃ m', (buildCategoryPathMap [catHome, catKitchen, catPots]).2 = some m' ∧
      jsGet m' catPots.id = some (slashJoinPath
        (([catPots, catKitchen, catHome] : List Cat).reverse.map
          (fun c => trimString c.name)))) := by
  have h := buildCategoryPathMap_leaf_path [catPots, catHome, catKitchen]
    [catKitchen, catHome] catPots (by decide)
    (by
      intro c hc
      fin_cases hc
      · exact ⟨"/Home/Kitchen/Pots", by decide⟩
      · exact ⟨"/Home", by decide⟩
      · exact ⟨"/Home/Kitchen", by decide⟩)
    ⟨by decide, by decide, by decide, by decide, by decide, by decide,
      by decide, Or.inl (by decide)⟩
    (by decide) (by decide)
  exact ⟨h.1, h.2 [catHome, catKitchen, catPots] (by decide)⟩

/-! ## Resilient request executor (src/api/client.js, claim C2)

`requestWithRetry` is embedded against an oracle `responses : Nat →
ReqOutcome` giving the outcome of the n-th physical request (n is the
source's `attempt` counter, starting at 1).  The backoff sleep is
real-time behaviour with no effect on control flow and is not modelled.
The result carries the number of physical requests issued. -/

inductive ReqOutcome where
  | ok (resp : String)
  | err (status : Option Nat) (detail : String)
deriving DecidableEq, Repr

def jsToUpper (c : Char) : Char :=
  match lowerTable.find? (fun p => p.2 = c) with
  | some p => p.1
  | none => c

def jsToUpperStr (s : String) : String :=
  String.mk (s.data.map jsToUpper)

/-- Model of `new URL(config.url, baseURL).toString()`: an absolute url
stands alone, a relative one is resolved against the base. -/
def resolveUrl (baseURL url : String) : String :=
  if url.startsWith "http" then url else baseURL ++ url

/-- The error template of `requestWithRetry`: method (upper-cased), full
URL and response detail. -/
def requestFailedMsg (method url baseURL detail : String) : String :=
  "Request failed: " ++ jsToUpperStr method ++ " " ++ resolveUrl baseURL url ++
    " :: " ++ detail

/-- Shallow embedding of `requestWithRetry` (src/api/client.js): retry
on a 429 status while `attempt ≤ 6`, otherwise fail with the
`RequestFailed`-style message.  Second component: number of physical
requests issued. -/
def requestWithRetry (responses : Nat → ReqOutcome)
    (method url baseURL : String) (attempt : Nat) :
    Except String String × Nat :=
  match responses attempt with
  | .ok r => (.ok r, 1)
  | .err status detail =>
    if h : status = some 429 ∧ attempt ≤ 6 then
      let r2 := requestWithRetry responses method url baseURL (attempt + 1)
      (r2.1, r2.2 + 1)
    else (.error (requestFailedMsg method url baseURL detail), 1)
termination_by 7 - attempt
decreasing_by
  obtain ⟨-, h2⟩ := h
  omega

lemma requestWithRetry_ok {responses : Nat → ReqOutcome}
    {method url baseURL : String} {attempt : Nat} {r : String}
    (hr : responses attempt = .ok r) :
    requestWithRetry responses method url baseURL attempt = (.ok r, 1) := by
  rw [requestWithRetry, hr]

lemma requestWithRetry_retry {responses : Nat → ReqOutcome}
    {method url baseURL : String} {attempt : Nat} {d : String}
    (ha : attempt ≤ 6) (hr : responses attempt = .err (some 429) d) :
    requestWithRetry responses method url baseURL attempt =
      ((requestWithRetry responses method url baseURL (attempt + 1)).1,
        (requestWithRetry responses method url baseURL (attempt + 1)).2 + 1) := by
  rw [requestWithRetry, hr]
  dsimp only
  rw [dif_pos ⟨rfl, ha⟩]

lemma requestWithRetry_fail {responses : Nat → ReqOutcome}
    {method url baseURL : String} {attempt : Nat} {status : Option Nat}
    {d : String} (h : ¬ (status = some 429 ∧ attempt ≤ 6))
    (hr : responses attempt = .err status d) :
    requestWithRetry responses method url baseURL attempt =
      (.error (requestFailedMsg method url baseURL d), 1) := by
  rw [requestWithRetry, hr]
  dsimp only
  rw [dif_neg h]

/-- C2: six consecutive 429 responses followed by a success yield exactly
6 retries (7 physical requests) and the successful value; a seventh
consecutive 429 makes the call fail with the RequestFailed-style message
(method, full URL, response detail) after 7 physical requests instead of
retrying further; and a non-429 failure is never retried (one physical
request, immediate failure). -/
theorem requestWithRetry_rate_limit_bound (responses : Nat → ReqOutcome)
    (method url baseURL : String) (d : Nat → String) :
    ((∀ i, 1 ≤ i → i ≤ 6 → responses i = .err (some 429) (d i)) →
      ∀ r, responses 7 = .ok r →
        requestWithRetry responses method url baseURL 1 = (.ok r, 7)) ∧
    ((∀ i, 1 ≤ i → i ≤ 7 → responses i = .err (some 429) (d i)) →
      requestWithRetry responses method url baseURL 1 =
        (.error (requestFailedMsg method url baseURL (d 7)), 7)) ∧
    (∀ status, status ≠ some 429 → responses 1 = .err status (d 1) →
      requestWithRetry responses method url baseURL 1 =
        (.error (requestFailedMsg method url baseURL (d 1)), 1)) := by
  refine ⟨?_, ?_, ?_⟩
  · intro h6 r hr7
    rw [requestWithRetry_retry (by omega) (h6 1 (by omega) (by omega)),
      requestWithRetry_retry (by omega) (h6 2 (by omega) (by omega)),
      requestWithRetry_retry (by omega) (h6 3 (by omega) (by omega)),
      requestWithRetry_retry (by omega) (h6 4 (by omega) (by omega)),
      requestWithRetry_retry (by omega) (h6 5 (by omega) (by omega)),
      requestWithRetry_retry (by omega) (h6 6 (by omega) (by omega)),
      requestWithRetry_ok hr7]
  · intro h7
    rw [requestWithRetry_retry (by omega) (h7 1 (by omega) (by omega)),
      requestWithRetry_retry (by omega) (h7 2 (by omega) (by omega)),
      requestWithRetry_retry (by omega) (h7 3 (by omega) (by omega)),
      requestWithRetry_retry (by omega) (h7 4 (by omega) (by omega)),
      requestWithRetry_retry (by omega) (h7 5 (by omega) (by omega)),
      requestWithRetry_retry (by omega) (h7 6 (by omega) (by omega)),
      requestWithRetry_fail (by intro hand; omega) (h7 7 (by omega) (by omega))]
  · intro status hst hr1
    exact requestWithRetry_fail (by intro hand; exact hst hand.1) hr1

/-- Witness for C2: three concrete response schedules. -/
theorem requestWithRetry_rate_limit_bound_witness :
    requestWithRetry (fun i => if i ≤ 6 then .err (some 429) "limit"
        else .ok "done") "get" "/catalog/products" "https://api.example" 1 =
      (.ok "done", 7) ∧
    requestWithRetry (fun _ => .err (some 429) "limit") "get"
        "/catalog/products" "https://api.example" 1 =
      (.error (requestFailedMsg "get" "/catalog/products"
        "https://api.example" "limit"), 7) ∧
    requestWithRetry (fun _ => .err (some 400) "bad request") "get"
        "/catalog/products" "https://api.example" 1 =
      (.error (requestFailedMsg "get" "/catalog/products"
        "https://api.example" "bad request"), 1) := by
  refine ⟨?_, ?_, ?_⟩
  · exact (requestWithRetry_rate_limit_bound _ "get" "/catalog/products"
      "https://api.example" (fun _ => "limit")).1
      (by
        intro i h1 h2
        show (if i ≤ 6 then ReqOutcome.err (some 429) "limit"
          else ReqOutcome.ok "done") = ReqOutcome.err (some 429) "limit"
        rw [if_pos h2])
      "done" (by decide)
  · exact (requestWithRetry_rate_limit_bound _ "get" "/catalog/products"
      "https://api.example" (fun _ => "limit")).2.1
      (by intro i _ _; rfl)
  · exact (requestWithRetry_rate_limit_bound _ "get" "/catalog/products"
      "https://api.example" (fun _ => "bad request")).2.2
      (some 400) (by decide) rfl

/-! ## Product upsert (src/migrators/productUpsert.js, claim C1)

The destination catalog is modelled as a list of products with
server-assigned sequential ids.  The two lookup endpoints are modelled
from the spec's external-interface description: the `name` filter
returns products whose name equals the parameter exactly, the `keyword`
search returns products whose lower-cased name contains the lower-cased
keyword; both are capped at the requested `limit` of 50. -/

structure DstProduct where
  id : Nat
  name : String
deriving DecidableEq, Repr

structure ProdDst where
  products : List DstProduct
  nextId : Nat
deriving DecidableEq, Repr

structure SrcProd where
  id : Nat
  name : String
deriving DecidableEq, Repr

def lowerStr (s : String) : String :=
  String.mk (s.data.map jsToLower)

/-- Modelled from the spec: the destination's `name` filter (exact
match, first 50). -/
def queryByName (dst : List DstProduct) (name : String) : List DstProduct :=
  (dst.filter (fun p => p.name = name)).take 50

/-- Modelled from the spec: the destination's `keyword` search (loose
containment, first 50). -/
def queryByKeyword (dst : List DstProduct) (kw : String) : List DstProduct :=
  (dst.filter (fun p => containsSub (lowerStr p.name) (lowerStr kw))).take 50

/-- Shallow embedding of `findDstProductByName`
(src/migrators/productUpsert.js): exact normalized-name match on the
`name` filter, then fall back to the keyword search re-filtered with
`namesEqual`. -/
def findDstProductByName (dst : List DstProduct) (name : String) :
    Option DstProduct :=
  match (queryByName dst name).find? (fun p => namesEqual p.name name) with
  | some p => some p
  | none => (queryByKeyword dst name).find? (fun p => namesEqual p.name name)

structure UpsertResult where
  product : Option DstProduct
  created : Bool
  skipped : Bool
deriving DecidableEq, Repr

def createProduct (st : ProdDst) (name : String) : DstProduct × ProdDst :=
  let newP : DstProduct := ⟨st.nextId, name⟩
  (newP, ⟨st.products ++ [newP], st.nextId + 1⟩)

def updateProduct (st : ProdDst) (pid : Nat) (name : String) :
    DstProduct × ProdDst :=
  (⟨pid, name⟩,
    ⟨st.products.map (fun q => if q.id = pid then ⟨q.id, name⟩ else q),
      st.nextId⟩)

/-- Shallow embedding of `upsertProductByName`
(src/migrators/productUpsert.js) over the destination-state model; the
payload's name is passed separately from the source product's name
(`baseProductPayload` sets `payload.name = p.name`). -/
def upsertProductByName (st : ProdDst) (payloadName srcName : String)
    (strategy suffix : String) : UpsertResult × ProdDst :=
  match findDstProductByName st.products srcName with
  | some existing =>
    if strategy = "skip" then
      ({ product := some existing, created := false, skipped := true }, st)
    else if strategy = "suffix" then
      let (newP, st') := createProduct st (payloadName ++ suffix)
      ({ product := some newP, created := true, skipped := false }, st')
    else
      let (upd, st') := updateProduct st existing.id payloadName
      ({ product := some upd, created := false, skipped := false }, st')
  | none =>
    let (newP, st') := createProduct st payloadName
    ({ product := some newP, created := true, skipped := false }, st')

/-- One reconciliation pass of the products migrator restricted to the
upsert decision (`payload.name = p.name` as in `baseProductPayload`):
counts of created entities, of entities the Identity Matcher found, and
of entities skipped. -/
def upsertStep (strategy suffix : String)
    (acc : (Nat × Nat × Nat) × ProdDst) (p : SrcProd) :
    (Nat × Nat × Nat) × ProdDst :=
  let found := (findDstProductByName acc.2.products p.name).isSome
  let r := upsertProductByName acc.2 p.name p.name strategy suffix
  ((acc.1.1 + (if r.1.created then 1 else 0),
    acc.1.2.1 + (if found then 1 else 0),
    acc.1.2.2 + (if r.1.skipped then 1 else 0)), r.2)

def runUpsertPass (strategy suffix : String) (srcs : List SrcProd)
    (st : ProdDst) : (Nat × Nat × Nat) × ProdDst :=
  srcs.foldl (upsertStep strategy suffix) ((0, 0, 0), st)

lemma namesEqual_refl (a : String) : namesEqual a a = true := by
  simp [namesEqual]

lemma namesEqual_of_eq {a b : String} (h : a = b) : namesEqual a b = true := by
  rw [h]
  exact namesEqual_refl b

/-- When no destination product name-matches, the matcher reports "not
found" (both query stages re-filter with `namesEqual`). -/
lemma findDstProductByName_none {dst : List DstProduct} {name : String}
    (h : ∀ q ∈ dst, namesEqual q.name name = false) :
    findDstProductByName dst name = none := by
  unfold findDstProductByName
  have h1 : (queryByName dst name).find? (fun p => namesEqual p.name name) = none := by
    rw [List.find?_eq_none]
    intro q hq
    have hq' : q ∈ dst := (List.mem_filter.mp (List.mem_of_mem_take hq)).1
    rw [h q hq']
    exact Bool.false_ne_true
  have h2 : (queryByKeyword dst name).find? (fun p => namesEqual p.name name) = none := by
    rw [List.find?_eq_none]
    intro q hq
    have hq' : q ∈ dst := (List.mem_filter.mp (List.mem_of_mem_take hq)).1
    rw [h q hq']
    exact Bool.false_ne_true
  rw [h1, h2]

/-- When the exact-name filter returns exactly one product, the matcher
returns it. -/
lemma findDstProductByName_singleton {dst : List DstProduct} {name : String}
    {q : DstProduct}
    (hq : dst.filter (fun r => r.name = name) = [q]) :
    findDstProductByName dst name = some q := by
  have hqname : q.name = name := by
    have := List.mem_filter.mp (hq ▸ List.mem_singleton_self q)
    simpa using this.2
  unfold findDstProductByName
  unfold queryByName
  rw [hq]
  have ht : List.take 50 [q] = [q] := rfl
  have hf : List.find? (fun p => namesEqual p.name name) [q] = some q :=
    List.find?_cons_of_pos _ (namesEqual_of_eq hqname)
  rw [ht, hf]

/-- Sequence of destination products a pass creates for fresh sources. -/
def newsFor : Nat → List SrcProd → List DstProduct
  | _, [] => []
  | n, p :: ps => ⟨n, p.name⟩ :: newsFor (n + 1) ps

lemma runUpsertPass_pass1 (strategy suffix : String) :
    ∀ (todo : List SrcProd) (st : ProdDst) (c m s : Nat),
      (∀ p ∈ todo, ∀ q ∈ st.products, namesEqual q.name p.name = false) →
      List.Pairwise (fun p q => namesEqual p.name q.name = false) todo →
      todo.foldl (upsertStep strategy suffix) ((c, m, s), st) =
        ((c + todo.length, m, s),
          ⟨st.products ++ newsFor st.nextId todo, st.nextId + todo.length⟩) := by
  intro todo
  induction todo with
  | nil =>
    intro st c m s _ _
    rw [List.foldl_nil, newsFor, List.append_nil, List.length_nil]
    rfl
  | cons p ps ih =>
    intro st c m s hno hpw
    have hfind : findDstProductByName st.products p.name = none :=
      findDstProductByName_none (hno p (List.mem_cons_self _ _))
    have hstep : upsertStep strategy suffix ((c, m, s), st) p =
        ((c + 1, m, s),
          ⟨st.products ++ [⟨st.nextId, p.name⟩], st.nextId + 1⟩) := by
      unfold upsertStep upsertProductByName
      rw [hfind]
      rfl
    have hno' : ∀ p' ∈ ps, ∀ q ∈
        (⟨st.products ++ [⟨st.nextId, p.name⟩], st.nextId + 1⟩ : ProdDst).products,
        namesEqual q.name p'.name = false := by
      intro p' hp' q hq
      rcases List.mem_append.mp hq with hq1 | hq2
      · exact hno p' (List.mem_cons_of_mem _ hp') q hq1
      · rcases List.mem_singleton.mp hq2 with rfl
        exact (List.pairwise_cons.mp hpw).1 p' hp'
    have hih := ih ⟨st.products ++ [⟨st.nextId, p.name⟩], st.nextId + 1⟩ (c + 1) m s
      hno' ((List.pairwise_cons.mp hpw).2)
    rw [List.foldl_cons, hstep, hih]
    rw [newsFor, List.length_cons]
    have hlen : st.nextId + 1 + ps.length = st.nextId + (ps.length + 1) := by omega
    have hcnt : c + 1 + ps.length = c + (ps.length + 1) := by omega
    rw [hlen, hcnt, List.append_assoc, List.singleton_append]

lemma runUpsertPass_pass2 (strategy suffix : String)
    (hstr : strategy = "update" ∨ strategy = "skip") :
    ∀ (todo : List SrcProd) (S : ProdDst) (c m s : Nat),
      ((S.products.map (fun q => q.id)).Nodup) →
      (∀ p ∈ todo, ∃ q, S.products.filter (fun r => r.name = p.name) = [q]) →
      todo.foldl (upsertStep strategy suffix) ((c, m, s), S) =
        ((c, m + todo.length,
          s + (if strategy = "skip" then todo.length else 0)), S) := by
  intro todo
  induction todo with
  | nil =>
    intro S c m s _ _
    rw [List.foldl_nil, List.length_nil]
    simp
  | cons p ps ih =>
    intro S c m s hnodup hone
    obtain ⟨q, hq⟩ := hone p (List.mem_cons_self _ _)
    have hqmem : q ∈ S.products :=
      (List.mem_filter.mp (hq ▸ List.mem_singleton_self q)).1
    have hqname : q.name = p.name := by
      have := List.mem_filter.mp (hq ▸ List.mem_singleton_self q)
      simpa using this.2
    have hfind : findDstProductByName S.products p.name = some q :=
      findDstProductByName_singleton hq
    have hupd : updateProduct S q.id p.name = (⟨q.id, p.name⟩, S) := by
      unfold updateProduct
      have hmap : S.products.map
          (fun r => if r.id = q.id then ⟨r.id, p.name⟩ else r) = S.products := by
        have hfix : ∀ r ∈ S.products,
            (if r.id = q.id then (⟨r.id, p.name⟩ : DstProduct) else r) = r := by
          intro r hr
          by_cases hid : r.id = q.id
          · rw [if_pos hid]
            have hrq : r = q :=
              List.inj_on_of_nodup_map hnodup hr hqmem hid
            rw [hrq, ← hqname]
          · rw [if_neg hid]
        rw [List.map_congr_left hfix, List.map_id']
      rw [hmap]
    have hstep : upsertStep strategy suffix ((c, m, s), S) p =
        ((c, m + 1, s + (if strategy = "skip" then 1 else 0)), S) := by
      rcases hstr with hstr | hstr <;> subst hstr <;>
        simp [upsertStep, upsertProductByName, hfind, hupd]
    rw [List.foldl_cons, hstep]
    rw [ih S c (m + 1) (s + (if strategy = "skip" then 1 else 0)) hnodup
      (fun p' hp' => hone p' (List.mem_cons_of_mem _ hp'))]
    rw [List.length_cons]
    have h1 : m + 1 + ps.length = m + (ps.length + 1) := by omega
    rw [h1]
    rcases hstr with hstr | hstr <;> subst hstr <;> simp <;> omega

lemma names_ne_of_namesEqual_false {a b : String}
    (h : namesEqual a b = false) : a ≠ b := by
  intro he
  rw [namesEqual_of_eq he] at h
  cases h

lemma mem_newsFor {r : DstProduct} :
    ∀ {l : List SrcProd} {n : Nat}, r ∈ newsFor n l →
      (∃ p ∈ l, r.name = p.name) ∧ n ≤ r.id ∧ r.id < n + l.length := by
  intro l
  induction l with
  | nil => intro n h; cases h
  | cons p ps ih =>
    intro n h
    rw [newsFor] at h
    rcases List.mem_cons.mp h with rfl | h'
    · exact ⟨⟨p, List.mem_cons_self _ _, rfl⟩, by simp, by simp⟩
    · obtain ⟨⟨p', hp', hn⟩, h1, h2⟩ := ih h'
      refine ⟨⟨p', List.mem_cons_of_mem _ hp', hn⟩, by omega, by
        rw [List.length_cons]; omega⟩

lemma newsFor_filter_singleton :
    ∀ (srcs : List SrcProd) (n : Nat) (p : SrcProd), p ∈ srcs →
      List.Pairwise (fun p q => namesEqual p.name q.name = false) srcs →
      ∃ q, (newsFor n srcs).filter (fun r => r.name = p.name) = [q] := by
  intro srcs
  induction srcs with
  | nil => intro n p hp; cases hp
  | cons p₀ ps ih =>
    intro n p hp hpw
    rw [newsFor]
    rcases List.mem_cons.mp hp with rfl | hp'
    · refine ⟨⟨n, p.name⟩, ?_⟩
      rw [List.filter_cons_of_pos (by simp)]
      rw [List.filter_eq_nil.mpr]
      intro r hr
      obtain ⟨⟨p', hp', hn⟩, -, -⟩ := mem_newsFor hr
      simp only [decide_eq_true_eq]
      rw [hn]
      exact fun he =>
        names_ne_of_namesEqual_false ((List.pairwise_cons.mp hpw).1 p' hp')
          he.symm
    · have hne : ¬ ((⟨n, p₀.name⟩ : DstProduct).name = p.name) :=
        names_ne_of_namesEqual_false ((List.pairwise_cons.mp hpw).1 p hp')
      rw [List.filter_cons_of_neg (by simpa using hne)]
      exact ih (n + 1) p hp' (List.pairwise_cons.mp hpw).2

lemma newsFor_ids :
    ∀ (l : List SrcProd) (n : Nat),
      (newsFor n l).map (fun q => q.id) = List.range' n l.length := by
  intro l
  induction l with
  | nil => intro n; rfl
  | cons p ps ih =>
    intro n
    rw [newsFor, List.map_cons, ih, List.length_cons, List.range'_succ]

/-! ### Brands migrator (src/migrators/brands.js) -/

structure SrcBrand where
  id : Nat
  name : String
deriving DecidableEq, Repr

structure DstBrand where
  id : Nat
  name : String
deriving DecidableEq, Repr

structure BrandSt where
  brands : List DstBrand
  nextId : Nat
deriving DecidableEq, Repr

def migrateBrandsGo {σ : Type}
    (create : σ → SrcBrand → Except String (DstBrand × σ))
    (dstByName : JsMap String DstBrand) :
    List SrcBrand → JsMap Nat Nat → σ → Except String (JsMap Nat Nat × σ)
  | [], bm, st => .ok (bm, st)
  | b :: bs, bm, st =>
    let key := normalize b.name
    if key = "" then migrateBrandsGo create dstByName bs bm st
    else
      match jsGet dstByName key with
      | some target =>
        migrateBrandsGo create dstByName bs (jsSet bm b.id target.id) st
      | none =>
        match create st b with
        | .error e => .error e
        | .ok (nb, st') =>
          migrateBrandsGo create dstByName bs (jsSet bm b.id nb.id) st'

/-- Shallow embedding of `migrateBrands` (src/migrators/brands.js) with
`dryRun = false`: the two paged fetches are supplied as lists, the
destination create is a client operation.  The name index is built once
and never updated on create, and there is no per-brand catch: a failing
create propagates out of the whole pass. -/
def migrateBrands {σ : Type}
    (create : σ → SrcBrand → Except String (DstBrand × σ))
    (srcBrands : List SrcBrand) (dstBrands : List DstBrand) (st : σ) :
    Except String (JsMap Nat Nat × σ) :=
  migrateBrandsGo create
    (jsOfList (dstBrands.map (fun b => (normalize b.name, b)))) srcBrands [] st

/-- Standard destination model for brand creation: always succeeds with
a fresh id. -/
def brandCreate (st : BrandSt) (b : SrcBrand) :
    Except String (DstBrand × BrandSt) :=
  .ok (⟨st.nextId, b.name⟩, ⟨st.brands ++ [⟨st.nextId, b.name⟩], st.nextId + 1⟩)

def newsBrands : Nat → List SrcBrand → List DstBrand
  | _, [] => []
  | n, b :: bs => ⟨n, b.name⟩ :: newsBrands (n + 1) bs

lemma foldl_jsSet_get_none {α β : Type} [DecidableEq α] :
    ∀ (l acc : List (α × β)) (k : α),
      jsGet (l.foldl (fun m p => jsSet m p.1 p.2) acc) k = none →
      jsGet acc k = none ∧ ∀ v, (k, v) ∉ l := by
  intro l
  induction l with
  | nil => intro acc k h; exact ⟨h, fun v hv => by cases hv⟩
  | cons e es ih =>
    intro acc k h
    rw [List.foldl_cons] at h
    obtain ⟨h1, h2⟩ := ih _ k h
    rw [jsGet_jsSet] at h1
    by_cases hk : k = e.1
    · rw [if_pos hk] at h1
      cases h1
    · rw [if_neg hk] at h1
      refine ⟨h1, fun v hv => ?_⟩
      rcases List.mem_cons.mp hv with hv' | hv'
      · exact hk (congrArg Prod.fst hv'.symm).symm
      · exact h2 v hv'

lemma jsGet_jsOfList_none {α β : Type} [DecidableEq α] {l : List (α × β)}
    {k : α} (h : jsGet (jsOfList l) k = none) : ∀ v, (k, v) ∉ l :=
  (foldl_jsSet_get_none l [] k h).2

lemma brands_pass_create :
    ∀ (todo : List SrcBrand) (bm : JsMap Nat Nat) (st : BrandSt)
      (dstByName : JsMap String DstBrand),
      (∀ b ∈ todo, normalize b.name ≠ "") →
      (∀ b ∈ todo, jsGet dstByName (normalize b.name) = none) →
      ∃ bm', migrateBrandsGo brandCreate dstByName todo bm st =
        .ok (bm', ⟨st.brands ++ newsBrands st.nextId todo,
          st.nextId + todo.length⟩) := by
  intro todo
  induction todo with
  | nil =>
    intro bm st dstByName _ _
    refine ⟨bm, ?_⟩
    rw [migrateBrandsGo, newsBrands, List.append_nil, List.length_nil,
      Nat.add_zero]
  | cons b bs ih =>
    intro bm st dstByName hne hmiss
    rw [migrateBrandsGo]
    rw [if_neg (hne b (List.mem_cons_self _ _))]
    rw [hmiss b (List.mem_cons_self _ _)]
    dsimp only [brandCreate]
    obtain ⟨bm', hbm'⟩ := ih (jsSet bm b.id st.nextId)
      ⟨st.brands ++ [⟨st.nextId, b.name⟩], st.nextId + 1⟩ dstByName
      (fun x hx => hne x (List.mem_cons_of_mem _ hx))
      (fun x hx => hmiss x (List.mem_cons_of_mem _ hx))
    refine ⟨bm', ?_⟩
    rw [hbm']
    rw [newsBrands, List.length_cons, List.append_assoc, List.singleton_append]
    have h1 : st.nextId + 1 + bs.length = st.nextId + (bs.length + 1) := by omega
    rw [h1]

lemma brands_pass_match :
    ∀ (todo : List SrcBrand) (bm : JsMap Nat Nat) (st : BrandSt)
      (dstByName : JsMap String DstBrand),
      (∀ b ∈ todo, normalize b.name ≠ "") →
      (∀ b ∈ todo, ∃ t, jsGet dstByName (normalize b.name) = some t) →
      ∃ bm', migrateBrandsGo brandCreate dstByName todo bm st = .ok (bm', st) ∧
        (∀ i, (jsGet bm i).isSome = true → (jsGet bm' i).isSome = true) ∧
        ∀ b ∈ todo, (jsGet bm' b.id).isSome = true := by
  intro todo
  induction todo with
  | nil =>
    intro bm st dstByName _ _
    exact ⟨bm, rfl, fun i h => h, fun b hb => by cases hb⟩
  | cons b bs ih =>
    intro bm st dstByName hne hhit
    obtain ⟨t, ht⟩ := hhit b (List.mem_cons_self _ _)
    rw [migrateBrandsGo]
    rw [if_neg (hne b (List.mem_cons_self _ _)), ht]
    obtain ⟨bm', hres, hpres, hall⟩ := ih (jsSet bm b.id t.id) st dstByName
      (fun x hx => hne x (List.mem_cons_of_mem _ hx))
      (fun x hx => hhit x (List.mem_cons_of_mem _ hx))
    refine ⟨bm', hres, ?_, ?_⟩
    · intro i hi
      refine hpres i ?_
      rw [jsGet_jsSet]
      by_cases hik : i = b.id
      · rw [if_pos hik]; rfl
      · rw [if_neg hik]; exact hi
    · intro x hx
      rcases List.mem_cons.mp hx with rfl | hx'
      · refine hpres x.id ?_
        rw [jsGet_jsSet, if_pos rfl]
        rfl
      · exact hall x hx'

lemma mem_newsBrands_self :
    ∀ (srcs : List SrcBrand) (n : Nat) (b : SrcBrand), b ∈ srcs →
      ∃ d ∈ newsBrands n srcs, d.name = b.name := by
  intro srcs
  induction srcs with
  | nil => intro n b hb; cases hb
  | cons b₀ bs ih =>
    intro n b hb
    rw [newsBrands]
    rcases List.mem_cons.mp hb with rfl | hb'
    · exact ⟨⟨n, b.name⟩, List.mem_cons_self _ _, rfl⟩
    · obtain ⟨d, hd, hdn⟩ := ih (n + 1) b hb'
      exact ⟨d, List.mem_cons_of_mem _ hd, hdn⟩

/-- C1 (amended): re-run idempotence for the `update` and `skip` product
strategies and for brands.  Over pairwise name-distinct fresh sources,
pass 1 creates N entities; pass 2 against the resulting destination
creates 0, and the Identity Matcher finds all N (products: the matched
count equals N; brands: the brand map holds every source id while the
destination brand list is unchanged).  The `suffix` strategy is excluded:
it creates a suffixed duplicate on every match (see the counterexample). -/
theorem rerun_idempotent_update_skip :
    (∀ (strategy suffix : String) (srcs : List SrcProd) (st₀ : ProdDst),
      strategy = "update" ∨ strategy = "skip" →
      (st₀.products.map (fun q => q.id)).Nodup →
      (∀ q ∈ st₀.products, q.id < st₀.nextId) →
      (∀ p ∈ srcs, ∀ q ∈ st₀.products, namesEqual q.name p.name = false) →
      List.Pairwise (fun p q => namesEqual p.name q.name = false) srcs →
      (runUpsertPass strategy suffix srcs st₀).1.1 = srcs.length ∧
      (runUpsertPass strategy suffix srcs
        (runUpsertPass strategy suffix srcs st₀).2).1.1 = 0 ∧
      (runUpsertPass strategy suffix srcs
        (runUpsertPass strategy suffix srcs st₀).2).1.2.1 = srcs.length) ∧
    (∀ (srcs : List SrcBrand) (st₀ : BrandSt),
      (∀ b ∈ srcs, normalize b.name ≠ "") →
      (∀ b ∈ srcs, ∀ d ∈ st₀.brands, normalize d.name ≠ normalize b.name) →
      ∃ bm₁, migrateBrands brandCreate srcs st₀.brands st₀ =
          .ok (bm₁, ⟨st₀.brands ++ newsBrands st₀.nextId srcs,
            st₀.nextId + srcs.length⟩) ∧
        ∃ bm₂, migrateBrands brandCreate srcs
            (st₀.brands ++ newsBrands st₀.nextId srcs)
            ⟨st₀.brands ++ newsBrands st₀.nextId srcs,
              st₀.nextId + srcs.length⟩ =
          .ok (bm₂, ⟨st₀.brands ++ newsBrands st₀.nextId srcs,
            st₀.nextId + srcs.length⟩) ∧
          ∀ b ∈ srcs, (jsGet bm₂ b.id).isSome = true) := by
  constructor
  · intro strategy suffix srcs st₀ hstr hnodup hlt hfresh hpw
    have hpass1 := runUpsertPass_pass1 strategy suffix srcs st₀ 0 0 0 hfresh hpw
    have hp1 : runUpsertPass strategy suffix srcs st₀ =
        ((0 + srcs.length, 0, 0),
          ⟨st₀.products ++ newsFor st₀.nextId srcs,
            st₀.nextId + srcs.length⟩) := hpass1
    set st₁ : ProdDst :=
      ⟨st₀.products ++ newsFor st₀.nextId srcs, st₀.nextId + srcs.length⟩ with hst₁
    have hnodup₁ : (st₁.products.map (fun q => q.id)).Nodup := by
      rw [hst₁]
      show ((st₀.products ++ newsFor st₀.nextId srcs).map (fun q => q.id)).Nodup
      rw [List.map_append, newsFor_ids, List.nodup_append]
      refine ⟨hnodup, List.nodup_range' _ _, ?_⟩
      intro a ha hb
      have h1 : a < st₀.nextId := by
        rcases List.mem_map.mp ha with ⟨q, hq, rfl⟩
        exact hlt q hq
      have h2 := (List.mem_range'_1.mp hb).1
      omega
    have hone : ∀ p ∈ srcs, ∃ q,
        st₁.products.filter (fun r => r.name = p.name) = [q] := by
      intro p hp
      obtain ⟨q, hq⟩ := newsFor_filter_singleton srcs st₀.nextId p hp hpw
      refine ⟨q, ?_⟩
      show (st₀.products ++ newsFor st₀.nextId srcs).filter
        (fun r => r.name = p.name) = [q]
      rw [List.filter_append, hq, List.filter_eq_nil.mpr, List.nil_append]
      intro r hr
      simp only [decide_eq_true_eq]
      exact names_ne_of_namesEqual_false (hfresh p hp r hr)
    have hpass2 := runUpsertPass_pass2 strategy suffix hstr srcs st₁ 0 0 0
      hnodup₁ hone
    refine ⟨by rw [hp1]; simp, ?_, ?_⟩
    · show (runUpsertPass strategy suffix srcs
        (runUpsertPass strategy suffix srcs st₀).2).1.1 = 0
      rw [hp1]
      show (runUpsertPass strategy suffix srcs st₁).1.1 = 0
      rw [show runUpsertPass strategy suffix srcs st₁ =
        srcs.foldl (upsertStep strategy suffix) ((0, 0, 0), st₁) from rfl]
      rw [hpass2]
    · rw [hp1]
      show (runUpsertPass strategy suffix srcs st₁).1.2.1 = srcs.length
      rw [show runUpsertPass strategy suffix srcs st₁ =
        srcs.foldl (upsertStep strategy suffix) ((0, 0, 0), st₁) from rfl]
      rw [hpass2]
      simp
  · intro srcs st₀ hne hfreshB
    have hmiss : ∀ b ∈ srcs,
        jsGet (jsOfList (st₀.brands.map (fun d => (normalize d.name, d))))
          (normalize b.name) = none := by
      intro b hb
      cases hg : jsGet (jsOfList (st₀.brands.map (fun d => (normalize d.name, d))))
          (normalize b.name) with
      | none => rfl
      | some t =>
        have hmem := mem_jsOfList _ (jsGet_mem hg)
        rcases List.mem_map.mp hmem with ⟨d, hd, he⟩
        have : normalize d.name = normalize b.name := congrArg Prod.fst he
        exact absurd this (hfreshB b hb d hd)
    obtain ⟨bm₁, hbm₁⟩ := brands_pass_create srcs [] st₀ _ hne hmiss
    refine ⟨bm₁, hbm₁, ?_⟩
    have hhit : ∀ b ∈ srcs, ∃ t,
        jsGet (jsOfList ((st₀.brands ++ newsBrands st₀.nextId srcs).map
          (fun d => (normalize d.name, d)))) (normalize b.name) = some t := by
      intro b hb
      cases hg : jsGet (jsOfList ((st₀.brands ++ newsBrands st₀.nextId srcs).map
          (fun d => (normalize d.name, d)))) (normalize b.name) with
      | some t => exact ⟨t, rfl⟩
      | none =>
        obtain ⟨d, hd, hdn⟩ := mem_newsBrands_self srcs st₀.nextId b hb
        have hentry : (normalize b.name, d) ∈
            (st₀.brands ++ newsBrands st₀.nextId srcs).map
              (fun d => (normalize d.name, d)) := by
          rw [← hdn]
          exact List.mem_map_of_mem _ (List.mem_append.mpr (Or.inr hd))
        exact absurd hentry (jsGet_jsOfList_none hg d)
    obtain ⟨bm₂, hres, -, hall⟩ := brands_pass_match srcs []
      ⟨st₀.brands ++ newsBrands st₀.nextId srcs, st₀.nextId + srcs.length⟩ _
      hne hhit
    exact ⟨bm₂, hres, hall⟩

/-- Counterexample to C1 as stated: under the `suffix` strategy a second
pass does not create 0 entities — re-running against the destination the
first pass produced creates a suffixed duplicate of the matched product. -/
theorem suffix_rerun_creates_duplicate :
    (runUpsertPass "suffix" " [sandbox]" [⟨7, "Widget"⟩] ⟨[], 1⟩).1.1 = 1 ∧
    (runUpsertPass "suffix" " [sandbox]" [⟨7, "Widget"⟩]
        (runUpsertPass "suffix" " [sandbox]" [⟨7, "Widget"⟩] ⟨[], 1⟩).2).1.1
      = 1 ∧
    ((runUpsertPass "suffix" " [sandbox]" [⟨7, "Widget"⟩]
        (runUpsertPass "suffix" " [sandbox]" [⟨7, "Widget"⟩] ⟨[], 1⟩).2).2.products.map
      (fun q => q.name)) = ["Widget", "Widget [sandbox]"] := by
  refine ⟨?_, ?_, ?_⟩ <;> rfl

/-- Witness for C1 (amended) at concrete inputs. -/
theorem rerun_idempotent_update_skip_witness :
    ((runUpsertPass "update" " [sandbox]" [⟨7, "Widget"⟩, ⟨8, "Gadget"⟩]
        ⟨[⟨1, "Other"⟩], 2⟩).1.1 = 2 ∧
      (runUpsertPass "update" " [sandbox]" [⟨7, "Widget"⟩, ⟨8, "Gadget"⟩]
        (runUpsertPass "update" " [sandbox]" [⟨7, "Widget"⟩, ⟨8, "Gadget"⟩]
          ⟨[⟨1, "Other"⟩], 2⟩).2).1.1 = 0 ∧
      (runUpsertPass "update" " [sandbox]" [⟨7, "Widget"⟩, ⟨8, "Gadget"⟩]
        (runUpsertPass "update" " [sandbox]" [⟨7, "Widget"⟩, ⟨8, "Gadget"⟩]
          ⟨[⟨1, "Other"⟩], 2⟩).2).1.2.1 = 2) ∧
    (∃ bm₁, migrateBrands brandCreate [⟨4, "Acme"⟩] ([] : List DstBrand)
        (⟨[], 1⟩ : BrandSt) =
        .ok (bm₁, ⟨[] ++ newsBrands 1 [⟨4, "Acme"⟩], 1 + 1⟩) ∧
      ∃ bm₂, migrateBrands brandCreate [⟨4, "Acme"⟩]
          ([] ++ newsBrands 1 [⟨4, "Acme"⟩])
          ⟨[] ++ newsBrands 1 [⟨4, "Acme"⟩], 1 + 1⟩ =
        .ok (bm₂, ⟨[] ++ newsBrands 1 [⟨4, "Acme"⟩], 1 + 1⟩) ∧
        ∀ b ∈ [(⟨4, "Acme"⟩ : SrcBrand)], (jsGet bm₂ b.id).isSome = true) := by
  constructor
  · exact rerun_idempotent_update_skip.1 "update" " [sandbox]"
      [⟨7, "Widget"⟩, ⟨8, "Gadget"⟩] ⟨[⟨1, "Other"⟩], 2⟩ (Or.inl rfl)
      (by decide) (by decide) (by decide) (by decide)
  · exact rerun_idempotent_update_skip.2 [⟨4, "Acme"⟩] ⟨[], 1⟩
      (by decide) (by decide)

/-! ## Variant migration (src/migrators/variants.js and
src/services/options.js, claims C3 and C10)

The destination state holds this product's variants, the store-wide set
of taken SKUs (the uniqueness domain of the 409 conflict), the option
values per option, and the in-memory `__valMap` caches.  Write requests
are recorded as events.  The destination rejects a variant create with
the 409 "Sku is not unique" message exactly when the payload carries a
SKU already taken. -/

structure SrcOV where
  option_display_name : String
  label : String
deriving DecidableEq, Repr

structure SrcVariant where
  sku : Option String
  price : Option Int
  inventory_level : Option Int
  option_values : List SrcOV
deriving DecidableEq, Repr

structure DstOption where
  id : Nat
  display_name : String
deriving DecidableEq, Repr

structure DstVariant where
  id : Nat
  sku : Option String
  option_values : List (Nat × Nat)
  price : Option Int
  inventory_level : Option Int
deriving DecidableEq, Repr

structure VariantPayload where
  sku : Option String
  option_values : List (Nat × Nat)
  price : Option Int
  inventory_level : Option Int
deriving DecidableEq, Repr

structure VarDst where
  productVariants : List DstVariant
  takenSkus : List String
  nextId : Nat
  optionValues : JsMap Nat (List (Nat × String))
  valMaps : JsMap Nat (JsMap String Nat)
  nextValueId : Nat
deriving DecidableEq, Repr

structure DstIdx where
  byName : JsMap String DstOption
deriving DecidableEq, Repr

inductive VarEvent where
  | createAttempt (payload : VariantPayload)
  | updateVariant (id : Nat) (payload : VariantPayload)
  | createValue (optionId : Nat) (label : String)
  | skipLog (sku : Option String)
deriving DecidableEq, Repr

/-- JavaScript truthiness of an optional string field. -/
def strTruthy : Option String → Bool
  | some s => s ≠ ""
  | none => false

/-- Shallow embedding of `indexDstOptions` (src/services/options.js). -/
def indexDstOptions (dstOptions : List DstOption) : DstIdx :=
  ⟨dstOptions.foldl (fun m o => jsSet m (normalize o.display_name) o) []⟩

/-- Conflict classification of `migrateVariants`: a 409 whose body says
the SKU is not unique (model of the `"status":409` containment plus the
case-insensitive `Sku .. is not unique` pattern test). -/
def isSkuConflictMsg (msg : String) : Bool :=
  containsSub msg "\"status\":409" && containsSub msg "Sku " &&
    containsSub msg "is not unique"

/-- Message the modelled destination produces when rejecting a non-unique
SKU. -/
def skuConflictMsg (s : String) : String :=
  "Request failed: POST /catalog/products/variants :: \"status\":409 Sku " ++
    s ++ " is not unique"

/-- Modelled from the spec: the destination accepts a variant create
unless the payload carries an already-taken SKU (global non-unique-SKU
conflict). -/
def tryCreateVariant (st : VarDst) (payload : VariantPayload) :
    Except String (DstVariant × VarDst) :=
  match payload.sku with
  | some s =>
    if s ∈ st.takenSkus then .error (skuConflictMsg s)
    else
      let nv : DstVariant :=
        ⟨st.nextId, some s, payload.option_values, payload.price,
          payload.inventory_level⟩
      .ok (nv,
        { st with
            productVariants := st.productVariants ++ [nv]
            takenSkus := st.takenSkus ++ [s]
            nextId := st.nextId + 1 })
  | none =>
    let nv : DstVariant :=
      ⟨st.nextId, none, payload.option_values, payload.price,
        payload.inventory_level⟩
    .ok (nv,
      { st with
          productVariants := st.productVariants ++ [nv]
          nextId := st.nextId + 1 })

def updateVariantInSt (st : VarDst) (vid : Nat) (payload : VariantPayload) :
    VarDst :=
  { st with productVariants := st.productVariants.map (fun dv =>
      if dv.id = vid then
        ⟨dv.id, payload.sku, payload.option_values, payload.price,
          payload.inventory_level⟩
      else dv) }

/-- Shallow embedding of `ensureOptionValue` (src/services/options.js):
the `__valMap` cache attached to an option is a side table keyed by the
option id; a missing label is created on the destination. -/
def ensureOptionValue (st : VarDst) (dstOpt : DstOption) (label : String) :
    Option Nat × VarDst × List VarEvent :=
  let vmSt : JsMap String Nat × VarDst :=
    match jsGet st.valMaps dstOpt.id with
    | some vm => (vm, st)
    | none =>
      let vals := (jsGet st.optionValues dstOpt.id).getD []
      let vm := jsOfList (vals.map (fun v => (normalize v.2, v.1)))
      (vm, { st with valMaps := jsSet st.valMaps dstOpt.id vm })
  let vm := vmSt.1
  let st₁ := vmSt.2
  let key := normalize label
  match jsGet vm key with
  | some vid => (some vid, st₁, [])
  | none =>
    let vid := st₁.nextValueId
    let vals := (jsGet st₁.optionValues dstOpt.id).getD []
    let st₂ : VarDst :=
      { st₁ with
          optionValues := jsSet st₁.optionValues dstOpt.id (vals ++ [(vid, label)])
          valMaps := jsSet st₁.valMaps dstOpt.id (jsSet vm key vid)
          nextValueId := vid + 1 }
    (some vid, st₂, [.createValue dstOpt.id label])

def mapVariantOVsGo (dstIdx : DstIdx) :
    List SrcOV → List (Nat × Nat) → VarDst → List VarEvent →
      Option (List (Nat × Nat)) × VarDst × List VarEvent
  | [], acc, st, evs => (some acc, st, evs)
  | ov :: rest, acc, st, evs =>
    let optNameKey := normalize ov.option_display_name
    match jsGet dstIdx.byName optNameKey with
    | none => (none, st, evs)
    | some dstOpt =>
      let r := ensureOptionValue st dstOpt ov.label
      match r.1 with
      | none => (none, r.2.1, evs ++ r.2.2)
      | some vid =>
        mapVariantOVsGo dstIdx rest (acc ++ [(dstOpt.id, vid)]) r.2.1
          (evs ++ r.2.2)

/-- Shallow embedding of `mapVariantOptionValuesAsync`
(src/services/options.js); an absent `option_values` array is modelled
as `[]` (both yield the `null` early return). -/
def mapVariantOptionValues (dstIdx : DstIdx) (v : SrcVariant) (st : VarDst) :
    Option (List (Nat × Nat)) × VarDst × List VarEvent :=
  if v.option_values = [] then (none, st, [])
  else mapVariantOVsGo dstIdx v.option_values [] st []

/-- While-loop of the `suffix` SKU strategy: candidates
`orig ++ sfx`, `orig ++ sfx ++ "-2"`, …, up to 10 attempts; exhaustion
gives up on the variant without an error.  The loop condition
`attempt < 10` is carried as the structural budget
`remaining = 10 - attempt`. -/
def suffixLoop (original skuSuffix : String) (base : VariantPayload) :
    Nat → Nat → VarDst → List VarEvent →
      Except String (Bool × VarDst × List VarEvent)
  | 0, _, st, evs => .ok (false, st, evs)
  | remaining + 1, attempt, st, evs =>
    let att := attempt + 1
    let candidate :=
      original ++ skuSuffix ++ (if att > 1 then "-" ++ toString att else "")
    let payload := { base with sku := some candidate }
    match tryCreateVariant st payload with
    | .ok r => .ok (true, r.2, evs ++ [.createAttempt payload])
    | .error msg =>
      if isSkuConflictMsg msg then
        suffixLoop original skuSuffix base remaining att st
          (evs ++ [.createAttempt payload])
      else .error msg

/-- Create-with-conflict-handling for one variant (the `try`/`catch`
around `tryCreate` of `migrateVariants`, with the skip / blank / suffix
policies; any strategy other than skip and blank falls through to the
suffix default as in the source). -/
def stepCreate (skuStrategy skuSuffix : String) (payloadV : VariantPayload)
    (count : Nat) (st : VarDst) (evs : List VarEvent) :
    Except String (Nat × VarDst × List VarEvent) :=
  match tryCreateVariant st payloadV with
  | .ok r => .ok (count + 1, r.2, evs ++ [.createAttempt payloadV])
  | .error msg =>
    let evs := evs ++ [.createAttempt payloadV]
    if ¬ isSkuConflictMsg msg then .error msg
    else if skuStrategy = "skip" then
      .ok (count, st, evs ++ [.skipLog payloadV.sku])
    else if skuStrategy = "blank" then
      let payload2 := { payloadV with sku := none }
      match tryCreateVariant st payload2 with
      | .ok r => .ok (count + 1, r.2, evs ++ [.createAttempt payload2])
      | .error msg2 => .error msg2
    else
      match payloadV.sku with
      | some s =>
        match suffixLoop s skuSuffix payloadV 10 0 st evs with
        | .ok r => .ok (count + (if r.1 then 1 else 0), r.2.1, r.2.2)
        | .error e => .error e
      | none => .error msg

/-- Body of the per-variant loop of `migrateVariants`
(src/migrators/variants.js): skip base variants, update when the SKU is
already on this product, otherwise create with conflict handling. -/
def stepVariant (skuStrategy skuSuffix : String) (dstIdx : DstIdx)
    (bySkuOnProduct : JsMap String DstVariant) (v : SrcVariant)
    (count : Nat) (st : VarDst) (evs : List VarEvent) :
    Except String (Nat × VarDst × List VarEvent) :=
  let m := mapVariantOptionValues dstIdx v st
  let st₁ := m.2.1
  let evs := evs ++ m.2.2
  match m.1 with
  | none => .ok (count, st₁, evs)
  | some movs =>
    if movs = [] then .ok (count, st₁, evs)
    else
      let basePayload : VariantPayload :=
        { sku := none, option_values := movs, price := v.price,
          inventory_level := v.inventory_level }
      let sku := if strTruthy v.sku then v.sku else none
      match sku with
      | some s =>
        match jsGet bySkuOnProduct s with
        | some existing =>
          let payload := { basePayload with sku := some s }
          .ok (count + 1, updateVariantInSt st₁ existing.id payload,
            evs ++ [.updateVariant existing.id payload])
        | none => stepCreate skuStrategy skuSuffix
            { basePayload with sku := some s } count st₁ evs
      | none => stepCreate skuStrategy skuSuffix basePayload count st₁ evs

def migrateVariantsGo (skuStrategy skuSuffix : String) (dstIdx : DstIdx)
    (bySku : JsMap String DstVariant) :
    List SrcVariant → Nat → VarDst → List VarEvent →
      Except String (Nat × VarDst × List VarEvent)
  | [], count, st, evs => .ok (count, st, evs)
  | v :: vs, count, st, evs =>
    match stepVariant skuStrategy skuSuffix dstIdx bySku v count st evs with
    | .ok r => migrateVariantsGo skuStrategy skuSuffix dstIdx bySku vs r.1 r.2.1 r.2.2
    | .error e => .error e

/-- Shallow embedding of `migrateVariants` (src/migrators/variants.js):
the per-product SKU index is built once from the variants fetched at the
start and never refreshed. -/
def migrateVariants (skuStrategy skuSuffix : String)
    (variants : List SrcVariant) (dstIdx : DstIdx) (st : VarDst) :
    Except String (Nat × VarDst × List VarEvent) :=
  let bySku := jsOfList
    ((st.productVariants.filter (fun ev => strTruthy ev.sku)).map
      (fun ev => (ev.sku.getD "", ev)))
  migrateVariantsGo skuStrategy skuSuffix dstIdx bySku variants 0 st []

def exceptOk? {ε α : Type} : Except ε α → Option α
  | .ok a => some a
  | .error _ => none

def evIsSkip : VarEvent → Bool
  | .skipLog _ => true
  | _ => false

def colorOpt : DstOption := ⟨10, "Color"⟩

def c3Idx : DstIdx := indexDstOptions [colorOpt]

/-- Destination for the C3 scenario: SKU "ABC" exists in the store (on
another product), none on this product; option values Red and Blue
already exist. -/
def c3St : VarDst :=
  ⟨[], ["ABC"], 1, [(10, [(100, "Red"), (101, "Blue")])], [], 200⟩

/-- Destination on which "ABC" and all ten suffix candidates are taken. -/
def c3StFull : VarDst :=
  ⟨[], ["ABC", "ABC-SBX", "ABC-SBX-2", "ABC-SBX-3", "ABC-SBX-4", "ABC-SBX-5",
      "ABC-SBX-6", "ABC-SBX-7", "ABC-SBX-8", "ABC-SBX-9", "ABC-SBX-10"],
    1, [(10, [(100, "Red"), (101, "Blue")])], [], 200⟩

def c3v1 : SrcVariant := ⟨some "ABC", none, none, [⟨"Color", "Red"⟩]⟩

def c3v2 : SrcVariant := ⟨some "ABC", none, none, [⟨"Color", "Blue"⟩]⟩

def c3v3 : SrcVariant := ⟨some "XYZ", none, none, [⟨"Color", "Blue"⟩]⟩

/-- C3: with destination SKU "ABC" taken and suffix "-SBX", two distinct
source variants carrying SKU "ABC" yield, under the `suffix` policy,
destination SKUs "ABC-SBX" and "ABC-SBX-2" in source order; under `skip`
both conflicting variants are abandoned with a skip record and nothing
is created; under `blank` the second (indeed each) variant is created
with no SKU; and when all 10 suffix attempts are taken the variant is
abandoned without failing the whole call, later variants still being
processed. -/
theorem migrateVariants_sku_conflict_policies :
    ((exceptOk? (migrateVariants "suffix" "-SBX" [c3v1, c3v2] c3Idx c3St)).map
        (fun r => (r.1, r.2.1.productVariants.map (fun dv => dv.sku)))) =
      some (2, [some "ABC-SBX", some "ABC-SBX-2"]) ∧
    ((exceptOk? (migrateVariants "skip" "-SBX" [c3v1, c3v2] c3Idx c3St)).map
        (fun r => (r.1, r.2.1.productVariants.map (fun dv => dv.sku),
          (r.2.2.filter evIsSkip).length))) =
      some (0, [], 2) ∧
    ((exceptOk? (migrateVariants "blank" "-SBX" [c3v1, c3v2] c3Idx c3St)).map
        (fun r => (r.1, r.2.1.productVariants.map (fun dv => dv.sku)))) =
      some (2, [none, none]) ∧
    ((exceptOk? (migrateVariants "suffix" "-SBX" [c3v1, c3v3] c3Idx c3StFull)).map
        (fun r => (r.1, r.2.1.productVariants.map (fun dv => dv.sku)))) =
      some (1, [some "XYZ"]) := by
  refine ⟨?_, ?_, ?_, ?_⟩ <;> rfl

lemma stepVariant_base {skuStrategy skuSuffix : String} {dstIdx : DstIdx}
    {bySku : JsMap String DstVariant} {v : SrcVariant} {count : Nat}
    {st : VarDst} {evs : List VarEvent} (hv : v.option_values = []) :
    stepVariant skuStrategy skuSuffix dstIdx bySku v count st evs =
      .ok (count, st, evs) := by
  unfold stepVariant mapVariantOptionValues
  rw [if_pos hv]
  dsimp only
  rw [List.append_nil]

/-- C10: a source variant whose `option_values` list is empty (or
absent) contributes nothing to the destination: `migrateVariants` with
that variant in the list equals `migrateVariants` without it — no
create, no update, no events, no change to the created count. -/
theorem migrateVariants_skips_base_variants
    (skuStrategy skuSuffix : String) (dstIdx : DstIdx) (st : VarDst)
    (vs₁ vs₂ : List SrcVariant) (v : SrcVariant)
    (hv : v.option_values = []) :
    migrateVariants skuStrategy skuSuffix (vs₁ ++ v :: vs₂) dstIdx st =
      migrateVariants skuStrategy skuSuffix (vs₁ ++ vs₂) dstIdx st := by
  unfold migrateVariants
  dsimp only
  generalize jsOfList ((st.productVariants.filter
    (fun ev => strTruthy ev.sku)).map (fun ev => (ev.sku.getD "", ev))) = bySku
  have hgo : ∀ (l₁ : List SrcVariant) (count : Nat) (st' : VarDst)
      (evs : List VarEvent),
      migrateVariantsGo skuStrategy skuSuffix dstIdx bySku (l₁ ++ v :: vs₂)
        count st' evs =
      migrateVariantsGo skuStrategy skuSuffix dstIdx bySku (l₁ ++ vs₂)
        count st' evs := by
    intro l₁
    induction l₁ with
    | nil =>
      intro count st' evs
      rw [List.nil_append, List.nil_append, migrateVariantsGo,
        stepVariant_base hv]
    | cons w ws ih =>
      intro count st' evs
      rw [List.cons_append, List.cons_append, migrateVariantsGo,
        migrateVariantsGo]
      cases hw : stepVariant skuStrategy skuSuffix dstIdx bySku w count st' evs with
      | error e => rfl
      | ok r =>
        dsimp only
        exact ih r.1 r.2.1 r.2.2
  exact hgo vs₁ 0 st []

/-- Witness for C10: a base variant (no option values) in the middle of
a list changes nothing. -/
theorem migrateVariants_skips_base_variants_witness :
    (⟨some "A", none, none, []⟩ : SrcVariant).option_values = [] ∧
    migrateVariants "suffix" "-SBX" ([c3v1] ++ ⟨some "A", none, none, []⟩ :: [])
        c3Idx c3St =
      migrateVariants "suffix" "-SBX" ([c3v1] ++ []) c3Idx c3St :=
  ⟨rfl, migrateVariants_skips_base_variants "suffix" "-SBX" c3Idx c3St
    [c3v1] [] ⟨some "A", none, none, []⟩ rfl⟩

/-! ## Option reconciliation (src/services/options.js, claim C7)

`ensureOptionsInDst` is embedded against an abstract destination client
(`fetchOptions`, `createOption` over an opaque state), because the
interesting behaviour — the initial option list being stale with respect
to the destination's duplicate test — is a property of the remote side.
Requests issued are recorded as events. -/

structure SrcOptVal where
  label : String
  is_default : Option Bool
  sort_order : Option Int
deriving DecidableEq, Repr

structure SrcOption where
  display_name : Option String
  name : Option String
  type : Option String
  option_values : List SrcOptVal
deriving DecidableEq, Repr

structure OptValPayload where
  label : String
  is_default : Bool
  sort_order : Int
deriving DecidableEq, Repr

structure OptPayload where
  display_name : String
  type : String
  option_values : List OptValPayload
deriving DecidableEq, Repr

/-- JavaScript `a || b` on an optional string: the fallback when absent
or empty. -/
def jsOrS (a : Option String) (b : String) : String :=
  match a with
  | some s => if s = "" then b else s
  | none => b

/-- Shallow embedding of `optionPayload` (src/services/options.js). -/
def optionPayload (opt : SrcOption) : OptPayload :=
  { display_name := jsOrS opt.display_name (jsOrS opt.name "Option")
    type := jsOrS opt.type "multiple_choice"
    option_values := opt.option_values.map (fun v =>
      ⟨v.label, v.is_default.getD false, v.sort_order.getD 0⟩) }

structure OptClient (σ : Type) where
  fetchOptions : σ → List DstOption × σ
  createOption : σ → OptPayload → Except String DstOption × σ

inductive OptEvent where
  | fetch
  | create (payload : OptPayload)
deriving DecidableEq, Repr

def ensureOptionsGo {σ : Type} (client : OptClient σ) :
    List SrcOption → JsMap String DstOption → List DstOption → σ →
      List OptEvent → Except String (List DstOption × σ × List OptEvent)
  | [], _, ensured, st, evs => .ok (ensured, st, evs)
  | srcOpt :: rest, byName, ensured, st, evs =>
    let nameKey := normalize (jsOrS srcOpt.display_name (jsOrS srcOpt.name ""))
    if nameKey = "" then ensureOptionsGo client rest byName ensured st evs
    else
      match jsGet byName nameKey with
      | some o => ensureOptionsGo client rest byName (ensured ++ [o]) st evs
      | none =>
        let payload := optionPayload srcOpt
        let r := client.createOption st payload
        let evs := evs ++ [.create payload]
        match r.1 with
        | .ok created =>
          ensureOptionsGo client rest (jsSet byName nameKey created)
            (ensured ++ [created]) r.2 evs
        | .error msg =>
          if containsSub msg "has already been used on this product" then
            let f := client.fetchOptions r.2
            let evs := evs ++ [.fetch]
            match f.1.find? (fun o => normalize o.display_name = nameKey) with
            | some m =>
              ensureOptionsGo client rest (jsSet byName nameKey m)
                (ensured ++ [m]) f.2 evs
            | none => ensureOptionsGo client rest byName ensured f.2 evs
          else .error msg

/-- Shallow embedding of `ensureOptionsInDst` (src/services/options.js):
fetch the product's options, index them by normalized display name, then
reuse, create, or — on an "already been used" rejection — re-fetch and
bind to the existing option. -/
def ensureOptionsInDst {σ : Type} (client : OptClient σ) (st : σ)
    (srcOptions : List SrcOption) :
    Except String (List DstOption × σ × List OptEvent) :=
  let f := client.fetchOptions st
  let byName := jsOfList (f.1.map (fun o => (normalize o.display_name, o)))
  ensureOptionsGo client srcOptions byName [] f.2 [.fetch]

/-- C7: (reuse) when the fetched destination options already contain one
whose normalized display name equals the source option's, zero creates
are issued and the existing option is returned; (conflict re-binding)
when the create attempt is rejected with the destination's "has already
been used on this product" message and the re-fetch shows a matching
option, the engine binds to it and reports success — the rejection is
not propagated. -/
theorem ensureOptionsInDst_reuse_and_rebind :
    (∀ (σ : Type) (client : OptClient σ) (st : σ) (srcOpt : SrcOption)
      (opts : List DstOption) (st₁ : σ),
      client.fetchOptions st = (opts, st₁) →
      normalize (jsOrS srcOpt.display_name (jsOrS srcOpt.name "")) ≠ "" →
      (∃ o ∈ opts, normalize o.display_name =
        normalize (jsOrS srcOpt.display_name (jsOrS srcOpt.name ""))) →
      ∃ m, ensureOptionsInDst client st [srcOpt] = .ok ([m], st₁, [.fetch]) ∧
        m ∈ opts ∧ normalize m.display_name =
          normalize (jsOrS srcOpt.display_name (jsOrS srcOpt.name ""))) ∧
    (∀ (σ : Type) (client : OptClient σ) (st : σ) (srcOpt : SrcOption)
      (opts opts₂ : List DstOption) (st₁ st₂ st₃ : σ) (msg : String)
      (m : DstOption),
      client.fetchOptions st = (opts, st₁) →
      (∀ o ∈ opts, normalize o.display_name ≠
        normalize (jsOrS srcOpt.display_name (jsOrS srcOpt.name ""))) →
      normalize (jsOrS srcOpt.display_name (jsOrS srcOpt.name "")) ≠ "" →
      client.createOption st₁ (optionPayload srcOpt) = (.error msg, st₂) →
      containsSub msg "has already been used on this product" = true →
      client.fetchOptions st₂ = (opts₂, st₃) →
      opts₂.find? (fun o => normalize o.display_name =
        normalize (jsOrS srcOpt.display_name (jsOrS srcOpt.name ""))) = some m →
      ensureOptionsInDst client st [srcOpt] =
        .ok ([m], st₃, [.fetch, .create (optionPayload srcOpt), .fetch])) := by
  constructor
  · intro σ client st srcOpt opts st₁ hf hkey hex
    unfold ensureOptionsInDst
    rw [hf]
    dsimp only
    rw [ensureOptionsGo]
    rw [if_neg hkey]
    set nameKey := normalize (jsOrS srcOpt.display_name (jsOrS srcOpt.name ""))
      with hnk
    cases hg : jsGet (jsOfList (opts.map (fun o => (normalize o.display_name, o))))
        nameKey with
    | none =>
      obtain ⟨o, ho, hon⟩ := hex
      have hentry : (nameKey, o) ∈
          opts.map (fun o => (normalize o.display_name, o)) := by
        rw [← hon]
        exact List.mem_map_of_mem _ ho
      exact absurd hentry (jsGet_jsOfList_none hg o)
    | some m =>
      have hmem := mem_jsOfList _ (jsGet_mem hg)
      rcases List.mem_map.mp hmem with ⟨o, ho, he⟩
      have h1 : normalize o.display_name = nameKey := congrArg Prod.fst he
      have h2 : o = m := congrArg Prod.snd he
      refine ⟨m, ?_, h2 ▸ ho, h2 ▸ h1⟩
      simp [ensureOptionsGo]
  · intro σ client st srcOpt opts opts₂ st₁ st₂ st₃ msg m hf hnone hkey hcr hmsg
      hf₂ hfind
    unfold ensureOptionsInDst
    rw [hf]
    dsimp only
    rw [ensureOptionsGo]
    rw [if_neg hkey]
    set nameKey := normalize (jsOrS srcOpt.display_name (jsOrS srcOpt.name ""))
      with hnk
    have hg : jsGet (jsOfList (opts.map (fun o => (normalize o.display_name, o))))
        nameKey = none := by
      cases hg : jsGet (jsOfList (opts.map (fun o => (normalize o.display_name, o))))
          nameKey with
      | none => rfl
      | some t =>
        have hmem := mem_jsOfList _ (jsGet_mem hg)
        rcases List.mem_map.mp hmem with ⟨o, ho, he⟩
        exact absurd (congrArg Prod.fst he) (hnone o ho)
    rw [hg]
    dsimp only
    rw [hcr]
    dsimp only
    rw [if_pos hmsg, hf₂]
    dsimp only
    rw [hfind]
    dsimp only
    simp [ensureOptionsGo]

/-- Witness for C7: a two-phase concrete client. -/
def c7Client : OptClient Nat :=
  { fetchOptions := fun n =>
      (if n = 0 then [] else [colorOpt], n + 1)
    createOption := fun n _ =>
      (.error "option name has already been used on this product", n) }

/-- Witness for C7 at concrete inputs: reuse on a pre-indexed option,
and re-binding after the already-used rejection. -/
theorem ensureOptionsInDst_reuse_and_rebind_witness :
    (∃ m, ensureOptionsInDst c7Client 1
        [⟨some "COLOR", none, none, []⟩] = .ok ([m], 2, [.fetch]) ∧
      m ∈ [colorOpt] ∧ normalize m.display_name =
        normalize (jsOrS (some "COLOR") (jsOrS none ""))) ∧
    ensureOptionsInDst c7Client 0 [⟨some "Color", none, none, []⟩] =
      .ok ([colorOpt], 2,
        [.fetch, .create (optionPayload ⟨some "Color", none, none, []⟩), .fetch]) := by
  constructor
  · exact ensureOptionsInDst_reuse_and_rebind.1 Nat c7Client 1
      ⟨some "COLOR", none, none, []⟩ [colorOpt] 2 rfl (by decide)
      ⟨colorOpt, List.mem_singleton_self _, by decide⟩
  · exact ensureOptionsInDst_reuse_and_rebind.2 Nat c7Client 0
      ⟨some "Color", none, none, []⟩ [] [colorOpt] 1 1 2
      "option name has already been used on this product" colorOpt rfl
      (by intro o ho; cases ho) (by decide) rfl (by decide) rfl (by decide)

/-! ## Per-entity failure isolation (src/migrators/products.js and
src/migrators/brands.js, claim C8)

`migrateProducts` wraps the whole per-product body in a `try`/`catch`
that converts a failure into a counted outcome and continues with the
next product.  The body's sub-steps (asset fetch, upsert, and the
options/variants/custom-fields/images/inventory block of lines 77–234)
are abstracted as client operations over an opaque state — their
internals are modelled separately (claims C1, C3, C7, C9); state
advances even when an operation throws, as server-side effects before a
throw persist.  `migrateBrands` (embedded above) has no per-entity
catch. -/

inductive EntOutcome where
  | processed
  | skippedDup
  | failed
deriving DecidableEq, Repr

structure ProdClient (σ : Type) where
  getAssets : σ → SrcProd → Except String Unit × σ
  upsert : σ → SrcProd → Except String UpsertResult × σ
  postSteps : σ → SrcProd → Except String Unit × σ

/-- Per-product body of `migrateProducts` (dryRun = false): returns
`true` when the upsert reported a duplicate-name skip, `false` when the
product was fully processed. -/
def migrateProductsBody {σ : Type} (client : ProdClient σ) (p : SrcProd)
    (st : σ) : Except String Bool × σ :=
  let a := client.getAssets st p
  match a.1 with
  | .error e => (.error e, a.2)
  | .ok _ =>
    let u := client.upsert a.2 p
    match u.1 with
    | .error e => (.error e, u.2)
    | .ok r =>
      if r.skipped then (.ok true, u.2)
      else
        let q := client.postSteps u.2 p
        match q.1 with
        | .error e => (.error e, q.2)
        | .ok _ => (.ok false, q.2)

/-- The per-product loop with its `catch` boundary: a failing body
increments the failed count and the loop continues with the next
product.  Counts are (processed, failed, skipped-by-strategy) as in the
final report. -/
def migrateProductsLoop {σ : Type} (client : ProdClient σ) :
    List SrcProd → σ → Nat → Nat → Nat → List EntOutcome →
      (Nat × Nat × Nat) × List EntOutcome × σ
  | [], st, pr, fl, sk, outs => ((pr, fl, sk), outs, st)
  | p :: ps, st, pr, fl, sk, outs =>
    match migrateProductsBody client p st with
    | (.ok true, st') =>
      migrateProductsLoop client ps st' pr fl (sk + 1) (outs ++ [.skippedDup])
    | (.ok false, st') =>
      migrateProductsLoop client ps st' (pr + 1) fl sk (outs ++ [.processed])
    | (.error _, st') =>
      migrateProductsLoop client ps st' pr (fl + 1) sk (outs ++ [.failed])

/-- Shallow embedding of the reconciliation pass of `migrateProducts`
(src/migrators/products.js). -/
def migrateProducts {σ : Type} (client : ProdClient σ) (srcs : List SrcProd)
    (st : σ) : (Nat × Nat × Nat) × List EntOutcome × σ :=
  migrateProductsLoop client srcs st 0 0 0 []

lemma migrateProductsLoop_shift {σ : Type} (client : ProdClient σ) :
    ∀ (srcs : List SrcProd) (st : σ) (pr fl sk : Nat) (outs : List EntOutcome),
      migrateProductsLoop client srcs st pr fl sk outs =
        (((migrateProductsLoop client srcs st 0 0 0 []).1.1 + pr,
          (migrateProductsLoop client srcs st 0 0 0 []).1.2.1 + fl,
          (migrateProductsLoop client srcs st 0 0 0 []).1.2.2 + sk),
         outs ++ (migrateProductsLoop client srcs st 0 0 0 []).2.1,
         (migrateProductsLoop client srcs st 0 0 0 []).2.2) := by
  intro srcs
  induction srcs with
  | nil =>
    intro st pr fl sk outs
    simp [migrateProductsLoop]
  | cons p ps ih =>
    intro st pr fl sk outs
    rw [migrateProductsLoop]
    rw [migrateProductsLoop]
    cases hb : migrateProductsBody client p st with
    | mk r st' =>
      cases r with
      | ok b =>
        cases b with
        | true =>
          dsimp only
          rw [ih st' pr fl (sk + 1) (outs ++ [EntOutcome.skippedDup]),
            ih st' 0 0 (0 + 1) ([] ++ [EntOutcome.skippedDup])]
          dsimp only
          simp only [Prod.mk.injEq, List.nil_append, List.append_assoc,
            List.singleton_append, Nat.zero_add, Nat.add_zero, true_and,
            and_true]
          all_goals omega
        | false =>
          dsimp only
          rw [ih st' (pr + 1) fl sk (outs ++ [EntOutcome.processed]),
            ih st' (0 + 1) 0 0 ([] ++ [EntOutcome.processed])]
          dsimp only
          simp only [Prod.mk.injEq, List.nil_append, List.append_assoc,
            List.singleton_append, Nat.zero_add, Nat.add_zero, true_and,
            and_true]
          all_goals omega
      | error e =>
        dsimp only
        rw [ih st' pr (fl + 1) sk (outs ++ [EntOutcome.failed]),
          ih st' 0 (0 + 1) 0 ([] ++ [EntOutcome.failed])]
        dsimp only
        simp only [Prod.mk.injEq, List.nil_append, List.append_assoc,
          List.singleton_append, Nat.zero_add, Nat.add_zero, true_and,
          and_true]
        all_goals omega

lemma entOutcome_filter_sum :
    ∀ outs : List EntOutcome,
      (outs.filter (fun o => o = EntOutcome.processed)).length +
        (outs.filter (fun o => o = EntOutcome.failed)).length +
        (outs.filter (fun o => o = EntOutcome.skippedDup)).length =
      outs.length := by
  intro outs
  induction outs with
  | nil => rfl
  | cons o os ih =>
    cases o <;> simp [List.filter_cons] <;> omega

lemma migrateProducts_counts {σ : Type} (client : ProdClient σ) :
    ∀ (srcs : List SrcProd) (st : σ),
      (migrateProducts client srcs st).2.1.length = srcs.length ∧
      (migrateProducts client srcs st).1.1 =
        ((migrateProducts client srcs st).2.1.filter
          (fun o => o = EntOutcome.processed)).length ∧
      (migrateProducts client srcs st).1.2.1 =
        ((migrateProducts client srcs st).2.1.filter
          (fun o => o = EntOutcome.failed)).length ∧
      (migrateProducts client srcs st).1.2.2 =
        ((migrateProducts client srcs st).2.1.filter
          (fun o => o = EntOutcome.skippedDup)).length := by
  intro srcs
  induction srcs with
  | nil => intro st; exact ⟨rfl, rfl, rfl, rfl⟩
  | cons p ps ih =>
    intro st
    simp only [migrateProducts] at ih ⊢
    rw [migrateProductsLoop]
    cases hb : migrateProductsBody client p st with
    | mk r st' =>
      obtain ⟨hlen, hpr, hfl, hsk⟩ := ih st'
      cases r with
      | ok b =>
        cases b with
        | true =>
          dsimp only
          rw [migrateProductsLoop_shift client ps st' 0 0 (0 + 1)
            ([] ++ [EntOutcome.skippedDup])]
          dsimp only
          refine ⟨?_, ?_, ?_, ?_⟩ <;>
            simp [List.filter_cons, hlen, hpr, hfl, hsk] <;> omega
        | false =>
          dsimp only
          rw [migrateProductsLoop_shift client ps st' (0 + 1) 0 0
            ([] ++ [EntOutcome.processed])]
          dsimp only
          refine ⟨?_, ?_, ?_, ?_⟩ <;>
            simp [List.filter_cons, hlen, hpr, hfl, hsk] <;> omega
      | error e =>
        dsimp only
        rw [migrateProductsLoop_shift client ps st' 0 (0 + 1) 0
          ([] ++ [EntOutcome.failed])]
        dsimp only
        refine ⟨?_, ?_, ?_, ?_⟩ <;>
          simp [List.filter_cons, hlen, hpr, hfl, hsk] <;> omega

/-- C8 (amended to products only): the reconciliation pass of
`migrateProducts` isolates per-product failures behind its `try`/`catch`:
whatever the client operations do — including throwing on any sub-step —
the pass runs to completion, produces exactly one outcome per source
product, its processed/failed/skipped counters each count exactly the
outcomes of that kind, and the three counters partition the source list.
The analogous claim is false for the brands pass, which has no per-entity
catch: see `migrateBrands_aborts_on_entity_failure`. -/
theorem migrateProducts_isolates_failures {σ : Type} (client : ProdClient σ)
    (srcs : List SrcProd) (st : σ) :
    (migrateProducts client srcs st).2.1.length = srcs.length ∧
    (migrateProducts client srcs st).1.1 =
      ((migrateProducts client srcs st).2.1.filter
        (fun o => o = EntOutcome.processed)).length ∧
    (migrateProducts client srcs st).1.2.1 =
      ((migrateProducts client srcs st).2.1.filter
        (fun o => o = EntOutcome.failed)).length ∧
    (migrateProducts client srcs st).1.2.2 =
      ((migrateProducts client srcs st).2.1.filter
        (fun o => o = EntOutcome.skippedDup)).length ∧
    (migrateProducts client srcs st).1.1 +
      (migrateProducts client srcs st).1.2.1 +
      (migrateProducts client srcs st).1.2.2 = srcs.length := by
  obtain ⟨h1, h2, h3, h4⟩ := migrateProducts_counts client srcs st
  refine ⟨h1, h2, h3, h4, ?_⟩
  rw [h2, h3, h4, ← h1]
  exact entOutcome_filter_sum _

/-- A destination whose brand-create endpoint throws. -/
def failingBrandCreate (st : BrandSt) (b : SrcBrand) :
    Except String (DstBrand × BrandSt) :=
  .error "Request failed: POST /catalog/brands :: boom"

/-- `migrateBrands` has no per-entity catch: the first failing brand
create aborts the whole pass with the error, before the remaining
brands are attempted and without reporting any counts or mapping. -/
theorem migrateBrands_aborts_on_entity_failure :
    migrateBrands failingBrandCreate
      [⟨1, "Alpha"⟩, ⟨2, "Beta"⟩] [] ⟨[], 100⟩ =
      .error "Request failed: POST /catalog/brands :: boom" := by
  rfl

/-! ## Custom-field "pair" dedup strategy (src/migrators/brands.js,
`ensureCustomFieldsInDst`, claim C9)

Only the `pair` strategy branch (lines 104–128) is embedded: the JS
`have` Set of key strings is a string list, the POST of a custom field
is modelled as in-place creation on the destination product state, and
the trace of POSTed `{ name, value }` bodies is returned alongside the
final state.  After a successful create the code adds the *created*
field's normalized key to `have`, which the embedding mirrors. -/

structure SrcCF where
  name : String
  value : String
deriving DecidableEq, Repr

structure DstCF where
  id : Nat
  name : String
  value : String
deriving DecidableEq, Repr

structure CfDst where
  fields : List DstCF
  nextId : Nat
deriving DecidableEq, Repr

/-- The dedup key of the `pair` strategy:
`${normalize(name)}::${normalize(value)}`. -/
def cfPairKey (name value : String) : String :=
  normalize name ++ "::" ++ normalize value

/-- POST /catalog/products/:id/custom-fields: the destination appends
the field and returns it as `created`. -/
def cfCreate (st : CfDst) (name value : String) : DstCF × CfDst :=
  (⟨st.nextId, name, value⟩,
   ⟨st.fields ++ [⟨st.nextId, name, value⟩], st.nextId + 1⟩)

/-- The `pair`-strategy loop of `ensureCustomFieldsInDst`: skip when the
key is in `have`, otherwise POST and add the created field's key. -/
def ensureCFPairGo : List SrcCF → List String → CfDst →
    List (String × String) → CfDst × List (String × String)
  | [], _, st, posts => (st, posts)
  | cf :: cfs, hs, st, posts =>
    if cfPairKey cf.name cf.value ∈ hs then
      ensureCFPairGo cfs hs st posts
    else
      ensureCFPairGo cfs
        (setAdd hs (cfPairKey (cfCreate st cf.name cf.value).1.name
          (cfCreate st cf.name cf.value).1.value))
        (cfCreate st cf.name cf.value).2
        (posts ++ [(cf.name, cf.value)])

/-- `ensureCustomFieldsInDst` with `strategy = 'pair'`: early return on an
empty source list, else seed `have` with the keys of the existing
destination fields and run the loop. -/
def ensureCustomFieldsInDstPair (srcCFs : List SrcCF) (st : CfDst) :
    CfDst × List (String × String) :=
  if srcCFs.length = 0 then (st, [])
  else
    ensureCFPairGo srcCFs
      (st.fields.map (fun cf => cfPairKey cf.name cf.value)) st []

/-- Reference dedup (from the code's actual key discipline): walk the
source fields with a set of seen key strings, emitting the fields whose
key string is fresh. -/
def pairDedupSpec : List SrcCF → List String → List (String × String)
  | [], _ => []
  | cf :: cfs, hs =>
    if cfPairKey cf.name cf.value ∈ hs then pairDedupSpec cfs hs
    else (cf.name, cf.value) ::
      pairDedupSpec cfs (setAdd hs (cfPairKey cf.name cf.value))

/-- The spec sentence's dedup predicate: the destination state has a
field agreeing with the source field on both normalized name and
normalized value. -/
def dstHasPair (st : CfDst) (name value : String) : Bool :=
  st.fields.any (fun cf =>
    normalize cf.name == normalize name && normalize cf.value == normalize value)

lemma ensureCFPairGo_spec :
    ∀ (srcs : List SrcCF) (hs : List String) (st : CfDst)
      (posts : List (String × String)),
      (∃ news, (ensureCFPairGo srcs hs st posts).1.fields =
          st.fields ++ news ∧
        news.map (fun f => (f.name, f.value)) = pairDedupSpec srcs hs) ∧
      (ensureCFPairGo srcs hs st posts).2 = posts ++ pairDedupSpec srcs hs := by
  intro srcs
  induction srcs with
  | nil =>
    intro hs st posts
    refine ⟨⟨[], by simp [ensureCFPairGo], rfl⟩, by simp [ensureCFPairGo,
      pairDedupSpec]⟩
  | cons cf cfs ih =>
    intro hs st posts
    rw [ensureCFPairGo, pairDedupSpec]
    by_cases hc : cfPairKey cf.name cf.value ∈ hs
    · rw [if_pos hc, if_pos hc]
      exact ih hs st posts
    · rw [if_neg hc, if_neg hc]
      dsimp only [cfCreate]
      obtain ⟨⟨news, hfields, hmap⟩, hposts⟩ := ih
        (setAdd hs (cfPairKey cf.name cf.value))
        ⟨st.fields ++ [⟨st.nextId, cf.name, cf.value⟩], st.nextId + 1⟩
        (posts ++ [(cf.name, cf.value)])
      refine ⟨⟨⟨st.nextId, cf.name, cf.value⟩ :: news, ?_, ?_⟩, ?_⟩
      · rw [hfields]
        simp
      · rw [List.map_cons, hmap]
      · rw [hposts]
        simp

/-- C9 (amended): under the `pair` strategy the uniqueness key is the
single string `normalize(name) ++ "::" ++ normalize(value)`, not the
normalized (name, value) tuple: a source field is POSTed exactly when
its key string is fresh with respect to the existing fields' key strings
and the keys of fields created earlier in the loop (the reference walk
`pairDedupSpec`), and the existing destination fields are never updated
or removed — the result's fields are the existing ones followed, in
order, by exactly the POSTed bodies.  Because the key is a string
concatenation it identifies distinct normalized pairs whose parts
contain `::` (see the counterexample), so "skipped exactly when the
destination already has the same normalized (name, value) pair" fails. -/
theorem ensureCustomFields_pair_key_dedup (srcs : List SrcCF) (st : CfDst) :
    (∃ news, (ensureCustomFieldsInDstPair srcs st).1.fields =
        st.fields ++ news ∧
      news.map (fun f => (f.name, f.value)) =
        pairDedupSpec srcs
          (st.fields.map (fun cf => cfPairKey cf.name cf.value))) ∧
    ((ensureCustomFieldsInDstPair srcs st).2 =
      if srcs.length = 0 then [] else
        pairDedupSpec srcs
          (st.fields.map (fun cf => cfPairKey cf.name cf.value))) := by
  rw [ensureCustomFieldsInDstPair]
  by_cases h0 : srcs.length = 0
  · rw [if_pos h0, if_pos h0]
    cases srcs with
    | nil => exact ⟨⟨[], by simp, rfl⟩, rfl⟩
    | cons a l => simp at h0
  · rw [if_neg h0, if_neg h0]
    have := ensureCFPairGo_spec srcs
      (st.fields.map (fun cf => cfPairKey cf.name cf.value)) st []
    exact ⟨this.1, by rw [this.2, List.nil_append]⟩

/-- Key-string collision: an existing destination field
`(name "x::y", value "z")` and a source field `(name "x", value "y::z")`
share the key `"x::y::z"`, so the source field is silently skipped
(no POST, state unchanged) although no destination field has its
normalized (name, value) pair. -/
theorem pair_key_collision_skips_distinct_pair :
    ensureCustomFieldsInDstPair [⟨"x", "y::z"⟩] ⟨[⟨1, "x::y", "z"⟩], 2⟩ =
      (⟨[⟨1, "x::y", "z"⟩], 2⟩, []) ∧
    dstHasPair ⟨[⟨1, "x::y", "z"⟩], 2⟩ "x" "y::z" = false := by
  exact ⟨rfl, rfl⟩

end BCMig
